import Mathlib

/-!
# Verification of the MessageFormat 2 parser specification

This development shallowly embeds the MF2 recursive-descent parser of
deps/icu-small/source/i18n/messageformat2_parser.h and settles the frozen
claims about it.  The inline cursor operations (peek, next, inBounds,
allConsumed), the MessageParseError structure and its zero-initialization
are embedded directly from the header.  The parser implementation file
(messageformat2_parser.cpp) is not part of the sources provided, so grammar
routines, the line-tracking update, the error translation and the builder
contracts are modelled from the specification; each such definition carries
a doc comment saying so.
-/

namespace MF2

/-! ### Definitions -/

/-! ## Code points and operands (data model of the spec, section 3) -/

/-- Modelled from the spec: an Operand is a Literal or a VariableName
(messageformat2_parser.cpp and the data-model builders are absent from src).
Strings are lists of code points. -/
inductive MOperand where
  | var (name : List Char)
  | literal (quoted : Bool) (value : List Char)
  deriving DecidableEq

/-! ## C1: option uniqueness vs. attribute multiplicity

The header (lines 34-58) declares the two adapter classes OptionAdder and
AttributeAdder, both forwarding an accept-(name, Operand) call to a builder;
options go to a uniqueness-checking receiver, attributes to a non-checking
one.  The receivers themselves are absent from src, so they are modelled
from the spec. -/

/-- An options list already contains an entry with the given name. -/
def hasOptionName (opts : List (List Char × MOperand)) (name : List Char) : Bool :=
  opts.any (fun p => p.1 = name)

/-- Result of adding options: either the accumulated list or a fatal
duplicate-option error carrying the offset of the duplicate occurrence. -/
inductive OptionsResult where
  | ok (opts : List (List Char × MOperand))
  | duplicateOptionError (offset : Nat)
  deriving DecidableEq

/-- Modelled from the spec: the uniqueness-checking receiver behind
OptionAdder.  A second Option with a name already seen in this
Expression/Markup is a fatal duplicate-option error located at the offset
of the duplicate occurrence. -/
def addOption (opts : List (List Char × MOperand)) (name : List Char)
    (v : MOperand) (offset : Nat) : OptionsResult :=
  if hasOptionName opts name then .duplicateOptionError offset
  else .ok (opts ++ [(name, v)])

/-- Modelled from the spec: the non-checking receiver behind AttributeAdder.
Duplicate attribute names are accepted; insertion order is preserved. -/
def addAttribute (attrs : List (List Char × MOperand)) (name : List Char)
    (v : MOperand) : List (List Char × MOperand) :=
  attrs ++ [(name, v)]

/-- A parsed option token: (name, operand) plus the code-point offset of its
name in the input. -/
abbrev OptionToken := (List Char × MOperand) × Nat

/-- Modelled from the spec: parseOptions folds the shared accept contract
over the uniqueness-checking receiver, stopping at the first duplicate. -/
def addOptions (opts : List (List Char × MOperand)) :
    List OptionToken → OptionsResult
  | [] => .ok opts
  | (nv, off) :: rest =>
    match addOption opts nv.1 nv.2 off with
    | .ok opts2 => addOptions opts2 rest
    | .duplicateOptionError o => .duplicateOptionError o

/-- Modelled from the spec: parseAttributes folds the same accept contract
over the non-checking receiver; every entry is kept. -/
def addAttributes (attrs : List (List Char × MOperand)) :
    List OptionToken → List (List Char × MOperand)
  | [] => attrs
  | (nv, _) :: rest => addAttributes (addAttribute attrs nv.1 nv.2) rest

/-- Number of entries with a given name. -/
def countName (l : List (List Char × MOperand)) (name : List Char) : Nat :=
  l.countP (fun p => p.1 = name)

/-! ## C3: matcher structural checks -/

/-- Modelled from the spec: a variant Key is a Literal or the Wildcard. -/
inductive MKey where
  | wild
  | lit (s : List Char)
  deriving DecidableEq

/-- A key is the wildcard. -/
def MKey.isWild : MKey → Bool
  | .wild => true
  | .lit _ => false

/-- Fatal structural errors of the matcher construct. -/
inductive MatcherError where
  | variantKeyMismatch
  | nonexhaustivePattern
  deriving DecidableEq

/-- Modelled from the spec: the end-of-construct structural checks of
parseSelectors/parseVariant (implementation absent from src): every
variant's key count must equal the selector count, and at least one variant
must consist entirely of wildcard keys. -/
def checkMatcher (numSelectors : Nat) (variants : List (List MKey)) :
    Option MatcherError :=
  if variants.any (fun ks => ks.length ≠ numSelectors) then
    some .variantKeyMismatch
  else if variants.any (fun ks => ks.all MKey.isWild) then
    none
  else
    some .nonexhaustivePattern

/-! ## The cursor: UTF-16 string embedding (header lines 196-224)

The Parser's source field is an ICU UnicodeString and its index field is
declared uint32_t.  The header's inline cursor functions are embedded here
verbatim; the two UnicodeString operations they call (char32At,
moveIndex32) live in ICU's common library, which is not under src/, so
they are modelled from their documented ICU semantics: both take and
return UTF-16 code-unit offsets.  The header itself corroborates this:
inBounds and allConsumed compare the index directly with
source.length(), which counts code units. -/

/-- A UnicodeString: a sequence of UTF-16 code units. -/
structure UnicodeString where
  units : List Nat
  deriving DecidableEq

/-- UnicodeString::length(): the number of code units. -/
def UnicodeString.length (s : UnicodeString) : Nat := s.units.length

/-- Well-formedness: every stored unit fits in 16 bits. -/
def UnicodeString.WF (s : UnicodeString) : Prop := ∀ u ∈ s.units, u < 0x10000

instance (s : UnicodeString) : Decidable s.WF :=
  inferInstanceAs (Decidable (∀ u ∈ s.units, u < 0x10000))

/-- The code unit at a code-unit offset (0 out of range; callers guard). -/
def UnicodeString.unitAt (s : UnicodeString) (i : Nat) : Nat := s.units.getD i 0

/-- U16_IS_LEAD: u is a lead surrogate. -/
def isLeadSurrogate (u : Nat) : Bool := 0xD800 ≤ u && u ≤ 0xDBFF

/-- U16_IS_TRAIL: u is a trail surrogate. -/
def isTrailSurrogate (u : Nat) : Bool := 0xDC00 ≤ u && u ≤ 0xDFFF

/-- A valid surrogate pair starts at code-unit offset i. -/
def pairAt (s : UnicodeString) (i : Nat) : Bool :=
  isLeadSurrogate (s.unitAt i) && decide (i + 1 < s.length) &&
    isTrailSurrogate (s.unitAt (i + 1))

/-- Modelled from the spec: ICU UnicodeString::char32At (unistr.h is absent
from src).  Returns the code point at a code-unit offset, combining a
surrogate pair into one supplementary code point, or 0xFFFF when the offset
is not valid — the distinguished no-character sentinel of the spec's
Cursor section. -/
def char32At (s : UnicodeString) (offset : Nat) : Nat :=
  if offset < s.length then
    if pairAt s offset then
      0x10000 + (s.unitAt offset - 0xD800) * 0x400 + (s.unitAt (offset + 1) - 0xDC00)
    else s.unitAt offset
  else 0xFFFF

/-- Code-unit width of the code point starting at offset i (U16_FWD_1 step). -/
def u16Width (s : UnicodeString) (i : Nat) : Nat := if pairAt s i then 2 else 1

/-- One forward step of moveIndex32: past the end the index stays put. -/
def fwd1 (s : UnicodeString) (i : Nat) : Nat :=
  if i < s.length then i + u16Width s i else i

/-- Iterated forward stepping (U16_FWD_N). -/
def fwdN (s : UnicodeString) (i : Nat) : Nat → Nat
  | 0 => i
  | n + 1 => fwdN s (fwd1 s i) n

/-- Modelled from the spec: ICU UnicodeString::moveIndex32 (unistr.cpp is
absent from src): moves a code-unit index forward by delta code points,
pinned to the string bounds; each step moves exactly one code point,
stepping over a surrogate pair as a single unit — the spec's advance(). -/
def moveIndex32 (s : UnicodeString) (index delta : Nat) : Nat :=
  fwdN s (min index s.length) delta

/-- The Parser's cursor state, embedded from the header: the source string
and the uint32_t index (header lines 218-221). -/
structure Cursor where
  source : UnicodeString
  index : Nat
  deriving DecidableEq

/-- Header line 196: peek() returns source.char32At(index). -/
def Cursor.peek (p : Cursor) : Nat := char32At p.source p.index

/-- Header lines 197-199: peek(i) returns
source.char32At(source.moveIndex32(index, i)). -/
def Cursor.peekN (p : Cursor) (i : Nat) : Nat :=
  char32At p.source (moveIndex32 p.source p.index i)

/-- Header line 200: next() sets index = source.moveIndex32(index, 1). -/
def Cursor.next (p : Cursor) : Cursor :=
  { p with index := moveIndex32 p.source p.index 1 }

/-- Header line 202: inBounds() returns index < source.length(). -/
def Cursor.inBounds (p : Cursor) : Bool := p.index < p.source.length

/-- Header line 204: allConsumed() returns index == source.length(). -/
def Cursor.allConsumed (p : Cursor) : Bool := p.index = p.source.length

/-! ## Error record and line tracking (header lines 94-106, 125-129, 146-148) -/

/-- The internal parse-error record, embedded from the header (lines
94-106): the line of the error, the offset relative to that line, the
total number of characters seen before advancing to the current line
(documented to be 0 when line == 0 and to include newline characters), and
the two context buffers, which the header notes the parser does not yet
use. -/
structure MessageParseError where
  line : Nat
  offset : Nat
  lengthBeforeCurrentLine : Nat
  preContext : List Char
  postContext : List Char
  deriving DecidableEq

/-- The Parser constructor's zero-initialization of the record, embedded
from the header (lines 125-129): counters 0, context buffers empty. -/
def initMessageParseError : MessageParseError :=
  { line := 0, offset := 0, lengthBeforeCurrentLine := 0,
    preContext := [], postContext := [] }

/-- The line-feed character. -/
def LF : Char := Char.ofNat 10

/-- Modelled from the spec: maybeAdvanceLine (body absent from src) — the
"maybe line advance" step run after consuming any character that could be
a line terminator: on a newline it increments the line and records the
total number of characters seen before the new line's start, the newline
itself included (index + 1). -/
def maybeAdvanceLine (pe : MessageParseError) (index : Nat) (c : Char) :
    MessageParseError :=
  if c = LF then
    { pe with line := pe.line + 1, lengthBeforeCurrentLine := index + 1 }
  else pe

/-- Modelled from the spec: setParseError (body absent from src) records
the error position: the absolute index is translated to an offset relative
to the current line by subtracting the characters before the line's start;
the context buffers are not touched. -/
def setParseError (pe : MessageParseError) (index : Nat) : MessageParseError :=
  { pe with offset := index - pe.lengthBeforeCurrentLine }

/-- Folding the line tracker over consumed characters, from a given record
and consumption index. -/
def trackGo : MessageParseError → Nat → List Char → MessageParseError
  | pe, _, [] => pe
  | pe, i, c :: r => trackGo (maybeAdvanceLine pe i c) (i + 1) r

/-- The tracker state after consuming a character list in a fresh parse. -/
def track (l : List Char) : MessageParseError :=
  trackGo initMessageParseError 0 l

/-- Independent characterization of "all characters consumed before the
current line's start, newlines included": the length of the longest prefix
ending in a newline, 0 when no newline was consumed. -/
def lenBeforeSpec : List Char → Nat
  | [] => 0
  | c :: r => if LF ∈ r then 1 + lenBeforeSpec r else if c = LF then 1 else 0

/-! ## The grammar parser, modelled from the spec

messageformat2_parser.cpp is absent from src/, so the grammar routines the
header declares (parseSimpleMessage, parsePlaceholder, parseLiteral,
parseQuotedLiteral, parseUnquotedLiteral, parseName, parseIdentifier,
parseDigits, parseVariableName, parseFunction, parseOptions,
parseAttributes, parseMarkup, parseEscapeSequence, parseTextChar,
parseOptionalWhitespace/parseOptionalBidi) are modelled from the
specification, on inputs taken as code-point sequences.  The model covers
simple messages in full placeholder generality: interleaved text runs,
escape sequences, and placeholders holding either an expression — an
operand, an annotation, or an operand followed by required whitespace and
an annotation, then attributes — or a markup open, close or standalone
tag with options and attributes.  Operands are variables or literals;
literals are quoted, bare names, or numeric tokens with optional sign,
fraction and exponent. -/

/-- Modelled from the spec: whitespace code points (space, tab, CR, LF,
ideographic space). -/
def isWSChar (c : Char) : Bool :=
  c.toNat = 0x20 || c.toNat = 0x9 || c.toNat = 0xD || c.toNat = 0xA ||
    c.toNat = 0x3000

/-- Modelled from the spec: bidi-control marks (ALM, LRM, RLM, LRI, RLI,
FSI, PDI). -/
def isBidiChar (c : Char) : Bool :=
  c.toNat = 0x61C || c.toNat = 0x200E || c.toNat = 0x200F ||
    (0x2066 ≤ c.toNat && c.toNat ≤ 0x2069)

/-- Optional-whitespace class: whitespace or bidi-control. -/
def isOWSChar (c : Char) : Bool := isWSChar c || isBidiChar c

/-- Modelled from the spec: ASCII alphabetic code points. -/
def isAlphaChar (c : Char) : Bool :=
  (0x61 ≤ c.toNat && c.toNat ≤ 0x7A) || (0x41 ≤ c.toNat && c.toNat ≤ 0x5A)

/-- Modelled from the spec: ASCII digits. -/
def isDigitChar (c : Char) : Bool := 0x30 ≤ c.toNat && c.toNat ≤ 0x39

/-- Modelled from the spec: name-start code points. -/
def isNameStartChar (c : Char) : Bool := isAlphaChar c || c.toNat = 0x5F

/-- Modelled from the spec: name code points. -/
def isNameChar (c : Char) : Bool :=
  isNameStartChar c || isDigitChar c || c.toNat = 0x2D || c.toNat = 0x2E

/-- Modelled from the spec: text code points — everything except the
escape and placeholder-boundary characters. -/
def isTextChar (c : Char) : Bool := !(c = '\\' || c = '{' || c = '}')

/-- Modelled from the spec: quoted code points — everything except the
escape character and the quote marker. -/
def isQuotedChar (c : Char) : Bool := !(c = '\\' || c = '|')

/-- Modelled from the spec: the escapable characters — backslash, the
placeholder boundaries and the quote marker. -/
def isEscapableChar (c : Char) : Bool :=
  c = '\\' || c = '{' || c = '|' || c = '}'

/-- Parser outcome: success with a value, or failure carrying the input
suffix whose head is the first unexpected code point (end-of-input errors
carry the empty suffix). -/
inductive PResult (α : Type) where
  | ok (val : α)
  | fail (rest : List Char)
  deriving DecidableEq

/-- Modelled from the spec: parseQuotedLiteral's scan after the opening
quote marker (implementation absent from src): quoted-class characters —
the branch order makes every character other than the quote marker and
backslash a quoted character — and escape sequences, until the closing
marker; an unterminated literal or invalid escape is fatal.  Returns the
resolved value, the consumed source verbatim (closing marker included) and
the remaining input. -/
def scanQuoted : List Char → PResult ((List Char × List Char) × List Char)
  | [] => .fail []
  | c :: r =>
    if c = '|' then .ok (([], ['|']), r)
    else if c = '\\' then
      match r with
      | [] => .fail []
      | c2 :: r2 =>
        if isEscapableChar c2 then
          match scanQuoted r2 with
          | .ok ((v, src), rest) => .ok ((c2 :: v, '\\' :: c2 :: src), rest)
          | .fail e => .fail e
        else .fail (c2 :: r2)
    else
      match scanQuoted r with
      | .ok ((v, src), rest) => .ok ((c :: v, c :: src), rest)
      | .fail e => .fail e

/-- Modelled from the spec: parseName (absent from src) — one name-start
code point followed by zero or more name code points. -/
def parseName : List Char → PResult (List Char × List Char)
  | [] => .fail []
  | c :: r =>
    if isNameStartChar c then
      .ok (c :: r.takeWhile isNameChar, r.dropWhile isNameChar)
    else .fail (c :: r)

/-- Modelled from the spec: the normalized-input contribution of a
consumed optional-whitespace run — each maximal whitespace subrun
collapses to one canonical space while bidi-control marks are preserved
verbatim in place.  The flag records whether the previous character was
whitespace. -/
def collapseGo : Bool → List Char → List Char
  | _, [] => []
  | prevWS, c :: r =>
    if isWSChar c then
      if prevWS then collapseGo true r else ' ' :: collapseGo true r
    else c :: collapseGo false r

/-- Collapse a whole consumed optional-whitespace run. -/
def collapseRun (l : List Char) : List Char := collapseGo false l

/-- Modelled from the spec: parseOptionalWhitespace/parseOptionalBidi
(absent from src) — consume zero or more whitespace or bidi-control code
points; returns the consumed run and the rest. -/
def splitOWS (l : List Char) : List Char × List Char :=
  (l.takeWhile isOWSChar, l.dropWhile isOWSChar)

/-- Identifier-extending characters: a name code point, the namespace
separator, or the option equals sign — characters that must not
immediately follow an emitted identifier if a reparse is to stop at the
same place. -/
def isIdentExt (c : Char) : Bool := isNameChar c || c = ':' || c = '='

/-- Characters an identifier is made of: name code points and the
namespace separator. -/
def isIdentChar (c : Char) : Bool := isNameChar c || c = ':'

/-- A code point that can start a Literal: the quote marker, a name start,
or the start of a numeric token. -/
def isLitStart (c : Char) : Bool :=
  c = '|' || isNameStartChar c || c = '-' || isDigitChar c

/-- Characters a numeric token is made of. -/
def isNumChar (c : Char) : Bool :=
  isDigitChar c || c = '-' || c = '+' || c = '.' || c = 'e' || c = 'E'

/-- Modelled from the spec: a digit run of a numeric token. -/
def scanDigits : List Char → PResult (List Char × List Char)
  | [] => .fail []
  | c :: r =>
    if isDigitChar c then
      .ok (c :: r.takeWhile isDigitChar, r.dropWhile isDigitChar)
    else .fail (c :: r)

/-- Modelled from the spec: the optional fraction part of a numeric
token. -/
def scanFrac : List Char → PResult (List Char × List Char)
  | [] => .ok ([], [])
  | c :: r =>
    if c = '.' then
      match scanDigits r with
      | .ok (d, r2) => .ok ('.' :: d, r2)
      | .fail e => .fail e
    else .ok ([], c :: r)

/-- Modelled from the spec: the optional exponent part of a numeric
token. -/
def scanExp : List Char → PResult (List Char × List Char)
  | [] => .ok ([], [])
  | c :: r =>
    if c = 'e' || c = 'E' then
      match r with
      | [] => .fail []
      | c2 :: r2 =>
        if c2 = '-' || c2 = '+' then
          match scanDigits r2 with
          | .ok (d, r3) => .ok (c :: c2 :: d, r3)
          | .fail e => .fail e
        else
          match scanDigits (c2 :: r2) with
          | .ok (d, r3) => .ok (c :: d, r3)
          | .fail e => .fail e
    else .ok ([], c :: r)

/-- Digits, then the optional fraction and exponent. -/
def scanNumRest (l : List Char) : PResult (List Char × List Char) :=
  match scanDigits l with
  | .fail e => .fail e
  | .ok (d, r1) =>
    match scanFrac r1 with
    | .fail e => .fail e
    | .ok (f, r2) =>
      match scanExp r2 with
      | .fail e => .fail e
      | .ok (x, r3) => .ok (d ++ f ++ x, r3)

/-- Modelled from the spec: a numeric unquoted-literal token — optional
sign, digits, optional fraction, optional exponent. -/
def scanNumber : List Char → PResult (List Char × List Char)
  | [] => .fail []
  | c :: r =>
    if c = '-' then
      match scanNumRest r with
      | .ok (num, rest) => .ok ('-' :: num, rest)
      | .fail e => .fail e
    else scanNumRest (c :: r)

/-- Modelled from the spec: parseLiteral (absent from src) — a quoted
literal, a bare-name unquoted literal, or a numeric unquoted literal.
Returns the literal, its normalized-input piece (the consumed source
verbatim) and the rest. -/
def parseLiteral : List Char → PResult ((MOperand × List Char) × List Char)
  | [] => .fail []
  | c :: r =>
    if c = '|' then
      match scanQuoted r with
      | .ok ((v, src), rest) => .ok ((.literal true v, '|' :: src), rest)
      | .fail e => .fail e
    else if isNameStartChar c then
      match parseName (c :: r) with
      | .ok (n, rest) => .ok ((.literal false n, n), rest)
      | .fail e => .fail e
    else if c = '-' || isDigitChar c then
      match scanNumber (c :: r) with
      | .ok (num, rest) => .ok ((.literal false num, num), rest)
      | .fail e => .fail e
    else .fail (c :: r)

/-- Modelled from the spec: an expression operand (absent from src) — a
Literal or a dollar-prefixed VariableName. -/
def parseOperand : List Char → PResult ((MOperand × List Char) × List Char)
  | [] => .fail []
  | c :: r =>
    if c = '$' then
      match parseName r with
      | .ok (n, rest) => .ok ((.var n, '$' :: n), rest)
      | .fail e => .fail e
    else parseLiteral (c :: r)

/-- Modelled from the spec: parseIdentifier (absent from src) — a name
with an optional namespace prefix separated by a colon. -/
def parseIdentifier (l : List Char) : PResult (List Char × List Char) :=
  match parseName l with
  | .fail e => .fail e
  | .ok (n1, r1) =>
    match r1 with
    | [] => .ok (n1, [])
    | c :: r2 =>
      if c = ':' then
        match parseName r2 with
        | .ok (n2, r3) => .ok (n1 ++ ':' :: n2, r3)
        | .fail e => .fail e
      else .ok (n1, c :: r2)

/-- Modelled from the spec: one Option — an identifier, the equals sign,
and an Operand. -/
def parseOption (l : List Char) :
    PResult (((List Char × MOperand) × List Char) × List Char) :=
  match parseIdentifier l with
  | .fail e => .fail e
  | .ok (idf, r1) =>
    match r1 with
    | [] => .fail []
    | c :: r2 =>
      if c = '=' then
        match parseOperand r2 with
        | .ok ((v, vnp), r3) => .ok (((idf, v), idf ++ '=' :: vnp), r3)
        | .fail e => .fail e
      else .fail (c :: r2)

/-- Modelled from the spec: parseOptions (absent from src) — zero or more
whitespace-separated Options routed through the uniqueness-checking
receiver: a second Option whose name was already seen in this
expression/markup is a fatal duplicate-option error at the duplicate
occurrence.  An option is consumed only when required whitespace is
followed by a name start; otherwise nothing is consumed.  Fuelled;
callers pass length + 1, always sufficient. -/
def parseOptions : Nat → List (List Char × MOperand) → List Char →
    PResult ((List (List Char × MOperand) × List Char) × List Char)
  | 0, _, l => .fail l
  | fuel + 1, acc, l =>
    match (splitOWS l).2 with
    | [] => .ok ((acc, []), l)
    | c :: r =>
      if isNameStartChar c && (splitOWS l).1.any isWSChar then
        match parseOption (c :: r) with
        | .fail e => .fail e
        | .ok ((opt, onp), r2) =>
          if hasOptionName acc opt.1 then .fail (c :: r)
          else
            match parseOptions fuel (acc ++ [opt]) r2 with
            | .ok ((opts, np2), r3) =>
              .ok ((opts, collapseRun (splitOWS l).1 ++ onp ++ np2), r3)
            | .fail e => .fail e
      else .ok ((acc, []), l)

/-- Modelled from the spec: one Attribute after its at sign — an
identifier with an optional equals-Literal value. -/
def parseAttribute (l : List Char) :
    PResult (((List Char × Option MOperand) × List Char) × List Char) :=
  match parseIdentifier l with
  | .fail e => .fail e
  | .ok (idf, r1) =>
    match r1 with
    | [] => .ok (((idf, none), '@' :: idf), [])
    | c :: r2 =>
      if c = '=' then
        match parseLiteral r2 with
        | .ok ((v, vnp), r3) =>
          .ok (((idf, some v), '@' :: idf ++ '=' :: vnp), r3)
        | .fail e => .fail e
      else .ok (((idf, none), '@' :: idf), c :: r2)

/-- Modelled from the spec: parseAttributes (absent from src) — zero or
more whitespace-separated at-sign Attributes routed through the
non-checking receiver: duplicate names are kept.  Fuelled; callers pass
length + 1, always sufficient. -/
def parseAttributes : Nat → List (List Char × Option MOperand) → List Char →
    PResult ((List (List Char × Option MOperand) × List Char) × List Char)
  | 0, _, l => .fail l
  | fuel + 1, acc, l =>
    match (splitOWS l).2 with
    | [] => .ok ((acc, []), l)
    | c :: r =>
      if c = '@' && (splitOWS l).1.any isWSChar then
        match parseAttribute r with
        | .fail e => .fail e
        | .ok ((att, anp), r2) =>
          match parseAttributes fuel (acc ++ [att]) r2 with
          | .ok ((atts, np2), r3) =>
            .ok ((atts, collapseRun (splitOWS l).1 ++ anp ++ np2), r3)
          | .fail e => .fail e
      else .ok ((acc, []), l)

/-- Modelled from the spec: parseAnnotation after its colon (absent from
src) — a function identifier followed by Options. -/
def parseAnnotation (l : List Char) :
    PResult (((List Char × List (List Char × MOperand)) × List Char) × List Char) :=
  match parseIdentifier l with
  | .fail e => .fail e
  | .ok (idf, r1) =>
    match parseOptions (r1.length + 1) [] r1 with
    | .ok ((opts, onp), r2) => .ok (((idf, opts), ':' :: idf ++ onp), r2)
    | .fail e => .fail e

/-- Modelled from the spec: the three Markup kinds. -/
inductive MarkupKind where
  | mopen
  | mclose
  | standalone
  deriving DecidableEq

/-- Modelled from the spec: a placeholder's payload — an Expression
(optional Operand, optional Annotation of function identifier and
Options, Attributes; the parser guarantees at least one of Operand and
Annotation is present) or a Markup tag (kind, identifier, Options,
Attributes). -/
inductive PlaceholderBody where
  | expression (operand : Option MOperand)
      (ann : Option (List Char × List (List Char × MOperand)))
      (attributes : List (List Char × Option MOperand))
  | markup (kind : MarkupKind) (name : List Char)
      (options : List (List Char × MOperand))
      (attributes : List (List Char × Option MOperand))
  deriving DecidableEq

/-- Modelled from the spec: an expression body — an Operand, an
Annotation, or an Operand followed by required whitespace and an
Annotation, then Attributes. -/
def parseExprBody (l : List Char) :
    PResult ((PlaceholderBody × List Char) × List Char) :=
  match l with
  | [] => .fail []
  | c :: r =>
    if c = ':' then
      match parseAnnotation r with
      | .fail e => .fail e
      | .ok ((ann, anp), r1) =>
        match parseAttributes (r1.length + 1) [] r1 with
        | .fail e => .fail e
        | .ok ((atts, tnp), r2) =>
          .ok ((.expression none (some ann) atts, anp ++ tnp), r2)
    else
      match parseOperand (c :: r) with
      | .fail e => .fail e
      | .ok ((op, onp), r1) =>
        match (splitOWS r1).2 with
        | c2 :: r2 =>
          if c2 = ':' && (splitOWS r1).1.any isWSChar then
            match parseAnnotation r2 with
            | .fail e => .fail e
            | .ok ((ann, anp), r3) =>
              match parseAttributes (r3.length + 1) [] r3 with
              | .fail e => .fail e
              | .ok ((atts, tnp), r4) =>
                .ok ((.expression (some op) (some ann) atts,
                  onp ++ collapseRun (splitOWS r1).1 ++ anp ++ tnp), r4)
          else
            match parseAttributes (r1.length + 1) [] r1 with
            | .fail e => .fail e
            | .ok ((atts, tnp), r2) =>
              .ok ((.expression (some op) none atts, onp ++ tnp), r2)
        | [] =>
          match parseAttributes (r1.length + 1) [] r1 with
          | .fail e => .fail e
          | .ok ((atts, tnp), r2) =>
            .ok ((.expression (some op) none atts, onp ++ tnp), r2)

/-- Modelled from the spec: a markup body after its sigil — identifier,
Options (forbidden, fatal, on a Close tag), Attributes. -/
def parseMarkupBody (isClose : Bool) (l : List Char) :
    PResult (((List Char × List (List Char × MOperand) ×
      List (List Char × Option MOperand)) × List Char) × List Char) :=
  match parseIdentifier l with
  | .fail e => .fail e
  | .ok (idf, r1) =>
    match parseOptions (r1.length + 1) [] r1 with
    | .fail e => .fail e
    | .ok ((opts, onp), r2) =>
      if isClose && !opts.isEmpty then .fail r2
      else
        match parseAttributes (r2.length + 1) [] r2 with
        | .fail e => .fail e
        | .ok ((atts, anp), r3) =>
          .ok (((idf, opts, atts), idf ++ onp ++ anp), r3)

/-- Modelled from the spec: parsePlaceholder (absent from src) — after
the opening boundary token (consumed by the caller) comes optional
whitespace and either an Expression body or a Markup body opened by a
hash or slash sigil, then optional whitespace, an optional self-close
marker on an open tag, and the closing boundary token.  Returns the
payload, the normalized piece (boundary tokens included, consumed
whitespace runs collapsed, everything else verbatim) and the rest. -/
def parsePlaceholder (l : List Char) :
    PResult ((PlaceholderBody × List Char) × List Char) :=
  match (splitOWS l).2 with
  | [] => .fail []
  | c :: r =>
    if c = '#' || c = '/' then
      match parseMarkupBody (c = '/') r with
      | .fail e => .fail e
      | .ok (((idf, opts, atts), bnp), r2) =>
        match (splitOWS r2).2 with
        | [] => .fail []
        | c2 :: r3 =>
          if c2 = '}' then
            .ok ((.markup (if c = '/' then .mclose else .mopen) idf opts atts,
              '{' :: (collapseRun (splitOWS l).1 ++ c :: bnp ++
                collapseRun (splitOWS r2).1 ++ ['}'])), r3)
          else if c2 = '/' then
            if c = '#' then
              match r3 with
              | [] => .fail []
              | c3 :: r4 =>
                if c3 = '}' then
                  .ok ((.markup .standalone idf opts atts,
                    '{' :: (collapseRun (splitOWS l).1 ++ c :: bnp ++
                      collapseRun (splitOWS r2).1 ++ '/' :: ['}'])), r4)
                else .fail (c3 :: r4)
            else .fail (c2 :: r3)
          else .fail (c2 :: r3)
    else
      match parseExprBody (c :: r) with
      | .fail e => .fail e
      | .ok ((body, bnp), r2) =>
        match (splitOWS r2).2 with
        | [] => .fail []
        | c2 :: r3 =>
          if c2 = '}' then
            .ok ((body, '{' :: (collapseRun (splitOWS l).1 ++ bnp ++
              collapseRun (splitOWS r2).1 ++ ['}'])), r3)
          else .fail (c2 :: r3)

/-- A parsed pattern part: a raw text code point, a resolved escape, or a
placeholder. -/
inductive Seg where
  | text (c : Char)
  | escape (c : Char)
  | placeholder (body : PlaceholderBody)
  deriving DecidableEq

/-- Modelled from the spec: the parseSimpleMessage loop (absent from src)
over text characters (parseTextChar), escape sequences
(parseEscapeSequence) and placeholders, with an explicit fuel argument
consumed once per pattern part; the wrapper supplies length + 1, which is
always sufficient.  Returns the Pattern and the normalized input; failure
carries the suffix starting at the first unexpected code point. -/
def parseSegs : Nat → List Char → PResult (List Seg × List Char)
  | 0, l => .fail l
  | fuel + 1, l =>
    match l with
    | [] => .ok ([], [])
    | c :: r =>
      if c = '\\' then
        match r with
        | [] => .fail []
        | c2 :: r2 =>
          if isEscapableChar c2 then
            match parseSegs fuel r2 with
            | .ok (m, n) => .ok (.escape c2 :: m, '\\' :: c2 :: n)
            | .fail e => .fail e
          else .fail (c2 :: r2)
      else if c = '{' then
        match parsePlaceholder r with
        | .fail e => .fail e
        | .ok ((op, np), r2) =>
          match parseSegs fuel r2 with
          | .ok (m, n) => .ok (.placeholder op :: m, np ++ n)
          | .fail e => .fail e
      else if isTextChar c then
        match parseSegs fuel r with
        | .ok (m, n) => .ok (.text c :: m, c :: n)
        | .fail e => .fail e
      else .fail (c :: r)

/-- Modelled from the spec: parseSimpleMessage (absent from src) — parse
the whole input as a simple message, producing the Pattern and the
normalized input. -/
def parseSimpleMessage (l : List Char) : PResult (List Seg × List Char) :=
  parseSegs (l.length + 1) l

/-- The head of the list, when present, fails the predicate. -/
def HeadNot (p : Char → Bool) (k : List Char) : Prop :=
  ∀ c, k.head? = some c → p c = false

/-- A code point that can start an Operand: a Literal start or the
variable sigil. -/
def isOpStart (c : Char) : Bool := c = '$' || isLitStart c

/-- A code point that can start an expression body: an annotation colon or
an Operand start. -/
def isExprStart (c : Char) : Bool := c = ':' || isOpStart c

/-! ## Remaining definitions: stripping, diagnostics, full parse result -/

/-- Resolved text contribution of one pattern part: a text character or a
resolved escape; placeholders contribute nothing. -/
def Seg.resolved : Seg → List Char
  | .text c => [c]
  | .escape c => [c]
  | .placeholder _ => []

/-- The pattern's text runs, escapes resolved, concatenated. -/
def patternText (m : List Seg) : List Char := (m.map Seg.resolved).flatten

/-- Independent description of skipping a quoted segment after its opening
marker: stop after the next quote marker, skipping one character after
each backslash. -/
def skipQuoted : List Char → Option (List Char)
  | [] => none
  | c :: r =>
    if c = '|' then some r
    else if c = '\\' then
      match r with
      | [] => none
      | _ :: r2 => skipQuoted r2
    else skipQuoted r

/-- Independent description of one placeholder segment after its opening
brace: everything up to the matching closing brace, quoted segments
treated as opaque.  Fuelled; callers pass length + 1. -/
def skipSpan : Nat → List Char → Option (List Char)
  | 0, _ => none
  | fuel + 1, l =>
    match l with
    | [] => none
    | c :: r =>
      if c = '}' then some r
      else if c = '|' then
        match skipQuoted r with
        | some r2 => skipSpan fuel r2
        | none => none
      else skipSpan fuel r

/-- The original input with each placeholder segment removed and each
escape sequence resolved: the reference value for the C4 property. -/
def stripPh : Nat → List Char → Option (List Char)
  | 0, _ => none
  | fuel + 1, l =>
    match l with
    | [] => some []
    | c :: r =>
      if c = '\\' then
        match r with
        | [] => none
        | c2 :: r2 =>
          if isEscapableChar c2 then
            match stripPh fuel r2 with
            | some t => some (c2 :: t)
            | none => none
          else none
      else if c = '{' then
        match skipSpan (r.length + 1) r with
        | some r2 => stripPh fuel r2
        | none => none
      else if isTextChar c then
        match stripPh fuel r with
        | some t => some (c :: t)
        | none => none
      else none

/-- Strip a whole input: placeholders removed, escapes resolved. -/
def stripPlaceholders (l : List Char) : Option (List Char) :=
  stripPh (l.length + 1) l

/-- A consumed source region is skip-safe: the independent span skipper
steps over it, quoted segments included, whenever it succeeds on what
follows. -/
def SpanConsume (cons : List Char) : Prop :=
  ∀ f k out, skipSpan f k = some out →
    skipSpan (cons.length + f) (cons ++ k) = some out

/-- After any leading optional whitespace, the head of the list, when
present, fails the predicate. -/
def AfterOWSHeadNot (p : Char → Bool) (k : List Char) : Prop :=
  HeadNot p (splitOWS k).2

/-- The final user-facing diagnostic, shaped like ICU's UParseError: line,
offset within the line, and the two bounded context buffers. -/
structure UParseErrorM where
  line : Nat
  offset : Nat
  preContext : List Char
  postContext : List Char
  deriving DecidableEq

/-- Modelled from the spec: translateParseError (body absent from src)
converts the internal record into the final diagnostic once at end of
parse; the context buffers — which the header (line 103) documents the
parser does not yet use, and which nothing ever writes — are copied as
they are. -/
def translateParseError (pe : MessageParseError) : UParseErrorM :=
  { line := pe.line, offset := pe.offset,
    preContext := pe.preContext, postContext := pe.postContext }

/-- Code points consumed before a failure that returned the given suffix. -/
def failIndex (input rest : List Char) : Nat := input.length - rest.length

/-- Modelled from the spec: the end-of-parse diagnostic pipeline — on
failure, the incrementally tracked line state at the failure position and
the failure position are recorded via setParseError and translated once
into the final diagnostic; on success there is no diagnostic. -/
def parseDiagnostic (input : List Char) : Option UParseErrorM :=
  match parseSimpleMessage input with
  | .ok _ => none
  | .fail rest =>
    some (translateParseError
      (setParseError (track (input.take (failIndex input rest)))
        (failIndex input rest)))

/-- The full observable result of one parse run: the outcome (data model
and normalized input on success) and the diagnostic (on failure). -/
def parseResult (input : List Char) :
    PResult (List Seg × List Char) × Option UParseErrorM :=
  (parseSimpleMessage input, parseDiagnostic input)

/-! ### Theorems -/

theorem addOptions_append (opts : List (List Char × MOperand))
    (ts1 ts2 : List OptionToken) :
    addOptions opts (ts1 ++ ts2) =
      match addOptions opts ts1 with
      | .ok opts2 => addOptions opts2 ts2
      | .duplicateOptionError o => .duplicateOptionError o := by
  induction ts1 generalizing opts with
  | nil => simp [addOptions]
  | cons t rest ih =>
    obtain ⟨nv, off⟩ := t
    simp only [List.cons_append, addOptions]
    cases h : addOption opts nv.1 nv.2 off with
    | ok opts2 => simpa using ih opts2
    | duplicateOptionError o => rfl

theorem addOptions_nodup (ts : List OptionToken)
    (opts : List (List Char × MOperand))
    (h : (opts.map Prod.fst ++ ts.map (fun t => t.1.1)).Nodup) :
    addOptions opts ts = .ok (opts ++ ts.map (fun t => t.1)) := by
  induction ts generalizing opts with
  | nil => simp [addOptions]
  | cons t rest ih =>
    obtain ⟨⟨name, v⟩, off⟩ := t
    have hd := List.disjoint_of_nodup_append h
    have hnot : hasOptionName opts name = false := by
      rw [hasOptionName, List.any_eq_false]
      intro p hp
      simp only [decide_eq_true_eq]
      intro heq
      have hmem : name ∈ opts.map Prod.fst := heq ▸ List.mem_map_of_mem Prod.fst hp
      have hmem2 : name ∈ (List.map (fun t => t.1.1) (((name, v), off) :: rest)) := by
        rw [List.map_cons]
        exact List.mem_cons_self _ _
      exact hd hmem hmem2
    rw [addOptions, addOption, hnot]
    simp only [Bool.false_eq_true, if_false]
    have h2 : ((opts ++ [(name, v)]).map Prod.fst ++
        (rest.map (fun t => t.1.1))).Nodup := by
      simp only [List.map_append, List.map_cons, List.map_nil] at h ⊢
      simpa [List.append_assoc] using h
    rw [ih (opts ++ [(name, v)]) h2]
    simp [List.append_assoc]

theorem addAttributes_count (attrs : List (List Char × MOperand))
    (ts : List OptionToken) (name : List Char) :
    countName (addAttributes attrs ts) name =
      countName attrs name + (ts.countP (fun t => t.1.1 = name)) := by
  induction ts generalizing attrs with
  | nil => simp [addAttributes]
  | cons t rest ih =>
    obtain ⟨⟨k, v⟩, off⟩ := t
    simp only [addAttributes, addAttribute]
    rw [ih]
    by_cases hk : k = name
    · simp [countName, hk, List.countP_append, List.countP_cons]
      omega
    · simp [countName, hk, List.countP_append, List.countP_cons]

/-- C1: adding an option whose name was already added to the same
Expression/Markup instance is a fatal duplicate-option error at the offset
of the duplicate occurrence (in particular the first duplicate in a token
stream positions the error at that token's offset), while adding an
attribute with an already-added name is accepted and yields two entries
with that name. -/
theorem c1_duplicate_option_fatal_duplicate_attribute_ok :
    (∀ (opts : List (List Char × MOperand)) (name : List Char)
       (v : MOperand) (off : Nat),
       hasOptionName opts name = true →
       addOption opts name v off = .duplicateOptionError off) ∧
    (∀ (opts : List (List Char × MOperand)) (name : List Char)
       (v : MOperand) (off : Nat),
       hasOptionName opts name = false →
       addOption opts name v off = .ok (opts ++ [(name, v)])) ∧
    (∀ (ts1 : List OptionToken) (name : List Char) (v : MOperand) (off : Nat)
       (ts2 : List OptionToken),
       (ts1.map (fun t => t.1.1)).Nodup →
       name ∈ ts1.map (fun t => t.1.1) →
       addOptions [] (ts1 ++ ((name, v), off) :: ts2) =
         .duplicateOptionError off) ∧
    (∀ (attrs : List (List Char × MOperand)) (name : List Char)
       (v1 v2 : MOperand) (o1 o2 : Nat),
       countName (addAttributes attrs [((name, v1), o1), ((name, v2), o2)]) name =
         countName attrs name + 2) := by
  refine ⟨?_, ?_, ?_, ?_⟩
  · intro opts name v off h
    simp [addOption, h]
  · intro opts name v off h
    simp [addOption, h]
  · intro ts1 name v off ts2 hnd hmem
    rw [addOptions_append]
    rw [addOptions_nodup ts1 [] (by simpa using hnd)]
    have : hasOptionName (ts1.map (fun t => t.1)) name = true := by
      simp only [hasOptionName, List.any_eq_true, decide_eq_true_eq]
      obtain ⟨t, ht, hname⟩ := List.mem_map.mp hmem
      exact ⟨t.1, List.mem_map_of_mem (fun t => t.1) ht, hname⟩
    simp [addOptions, addOption, this]
  · intro attrs name v1 v2 o1 o2
    rw [addAttributes_count]
    simp [List.countP_cons]

/-- Witness: the spec's example, an expression with options a=1 a=2 (the
second a at offset 14), fails with a duplicate-option error at offset 14,
and the attribute example @a=1 @a=2 yields two entries named a. -/
theorem c1_witness :
    addOptions [] [((['a'], .literal false ['1']), 10),
                   ((['a'], .literal false ['2']), 14)] =
      .duplicateOptionError 14 ∧
    countName (addAttributes [] [((['a'], .literal false ['1']), 10),
                                 ((['a'], .literal false ['2']), 14)]) ['a'] = 2 := by
  constructor
  · exact c1_duplicate_option_fatal_duplicate_attribute_ok.2.2.1
      [((['a'], .literal false ['1']), 10)] ['a'] (.literal false ['2']) 14 []
      (by decide) (by decide)
  · simpa using c1_duplicate_option_fatal_duplicate_attribute_ok.2.2.2
      [] ['a'] (.literal false ['1']) (.literal false ['2']) 10 14

/-- C3: a matcher fails with a fatal selector/variant arity-mismatch error
when some variant's key count differs from the selector count, fails with a
fatal missing-catch-all error when no variant is all-wildcard, and a
matcher violating neither condition is not rejected for these reasons. -/
theorem c3_matcher_structural_checks :
    (∀ (n : Nat) (vars : List (List MKey)),
       (∃ ks ∈ vars, ks.length ≠ n) →
       checkMatcher n vars = some .variantKeyMismatch) ∧
    (∀ (n : Nat) (vars : List (List MKey)),
       (∀ ks ∈ vars, ks.length = n) →
       (∀ ks ∈ vars, ¬ (ks.all MKey.isWild = true)) →
       checkMatcher n vars = some .nonexhaustivePattern) ∧
    (∀ (n : Nat) (vars : List (List MKey)),
       (∀ ks ∈ vars, ks.length = n) →
       (∃ ks ∈ vars, ks.all MKey.isWild = true) →
       checkMatcher n vars = none) := by
  refine ⟨?_, ?_, ?_⟩
  · intro n vars ⟨ks, hks, hne⟩
    have hc : vars.any (fun ks => ks.length ≠ n) = true := by
      simp only [List.any_eq_true, decide_eq_true_eq]
      exact ⟨ks, hks, hne⟩
    rw [checkMatcher, if_pos hc]
  · intro n vars hlen hwild
    have h1 : vars.any (fun ks => ks.length ≠ n) = false := by
      simp only [List.any_eq_false, decide_eq_true_eq, not_not]
      exact hlen
    have h2 : vars.any (fun ks => ks.all MKey.isWild) = false := by
      simp only [List.any_eq_false]
      exact hwild
    rw [checkMatcher, if_neg (by rw [h1]; exact Bool.false_ne_true), if_neg (by rw [h2]; exact Bool.false_ne_true)]
  · intro n vars hlen ⟨ks, hks, hw⟩
    have h1 : vars.any (fun ks => ks.length ≠ n) = false := by
      simp only [List.any_eq_false, decide_eq_true_eq, not_not]
      exact hlen
    have h2 : vars.any (fun ks => ks.all MKey.isWild) = true := by
      simp only [List.any_eq_true]
      exact ⟨ks, hks, hw⟩
    rw [checkMatcher, if_neg (by rw [h1]; exact Bool.false_ne_true), if_pos h2]

/-- Witness: the spec's examples.  One selector with two-key variants is an
arity mismatch; variants lacking an all-wildcard row are nonexhaustive; a
well-formed matcher passes both checks. -/
theorem c3_witness :
    checkMatcher 1 [[.wild, .wild], [.lit ['a'], .wild]] =
      some .variantKeyMismatch ∧
    checkMatcher 1 [[MKey.lit ['a']], [MKey.lit ['b']]] =
      some .nonexhaustivePattern ∧
    checkMatcher 1 [[MKey.lit ['a']], [MKey.wild]] = none := by
  refine ⟨?_, ?_, ?_⟩
  · exact c3_matcher_structural_checks.1 1 _ ⟨[.wild, .wild], by simp, by simp⟩
  · exact c3_matcher_structural_checks.2.1 1 _ (by decide) (by decide)
  · exact c3_matcher_structural_checks.2.2 1 _ (by decide)
      ⟨[MKey.wild], by simp, by decide⟩

theorem fwdN_of_le (s : UnicodeString) (i : Nat) (h : s.length ≤ i) :
    ∀ n, fwdN s i n = i
  | 0 => rfl
  | n + 1 => by
      rw [fwdN, fwd1, if_neg (by omega)]
      exact fwdN_of_le s i h n

theorem unitAt_mem (s : UnicodeString) (i : Nat) (h : i < s.length) :
    s.unitAt i ∈ s.units := by
  rw [UnicodeString.unitAt, List.getD_eq_getElem s.units 0 h]
  exact List.getElem_mem h

/-- C2 counterexample: on the input U+10000 (surrogate pair D800 DC00)
followed by the letter a, a single advance() steps over the supplementary
character as one unit, yet the index lands at 2, not 1, and allConsumed
still fails at index 2 even though only one more code point remains:
positions count UTF-16 code units, refuting the claim that every position
the parser manipulates counts code points and that a supplementary-plane
character occupies exactly one position. -/
theorem c2_counterexample :
    char32At ⟨[0xD800, 0xDC00, 0x61]⟩ 0 = 0x10000 ∧
    (Cursor.next ⟨⟨[0xD800, 0xDC00, 0x61]⟩, 0⟩).index = 2 ∧
    (Cursor.next ⟨⟨[0xD800, 0xDC00, 0x61]⟩, 0⟩).index ≠ 1 ∧
    Cursor.peek (Cursor.next ⟨⟨[0xD800, 0xDC00, 0x61]⟩, 0⟩) = 0x61 ∧
    Cursor.allConsumed ⟨⟨[0xD800, 0xDC00, 0x61]⟩, 2⟩ = false := by
  decide

/-- C2 amended: advance() does move exactly one code point forward,
stepping over a surrogate pair as a single unit, but cursor positions are
UTF-16 code-unit offsets: next() advances the index by the code-unit width
of the code point under the cursor, and that width is 2 — two positions —
exactly for supplementary-plane code points. -/
theorem c2_amended_codeunit_positions (s : UnicodeString) (i : Nat)
    (hw : s.WF) (hi : i < s.length) :
    (Cursor.next ⟨s, i⟩).index = i + u16Width s i ∧
    (0x10000 ≤ char32At s i ↔ u16Width s i = 2) := by
  have hmin : min i s.length = i := Nat.min_eq_left (Nat.le_of_lt hi)
  constructor
  · show moveIndex32 s i 1 = i + u16Width s i
    rw [moveIndex32, hmin]
    show fwdN s (fwd1 s i) 0 = i + u16Width s i
    rw [fwdN, fwd1, if_pos hi]
  · rw [char32At, if_pos hi]
    by_cases hp : pairAt s i = true
    · rw [if_pos hp]
      have h1 : u16Width s i = 2 := by rw [u16Width, if_pos hp]
      exact ⟨fun _ => h1, fun _ => by omega⟩
    · have hp' : pairAt s i = false := by
        exact Bool.not_eq_true _ ▸ (eq_false_of_ne_true hp)
      rw [if_neg (by simp [hp'])]
      have h1 : u16Width s i = 1 := by rw [u16Width, if_neg (by simp [hp'])]
      have hu : s.unitAt i < 0x10000 := hw _ (unitAt_mem s i hi)
      constructor
      · intro hle
        omega
      · intro h2
        rw [h1] at h2
        omega

/-- Witness for the amended C2: applying it to the surrogate-pair input at
index 0 yields index 2 after one advance. -/
theorem c2_amended_witness :
    (Cursor.next ⟨⟨[0xD800, 0xDC00, 0x61]⟩, 0⟩).index =
      0 + u16Width ⟨[0xD800, 0xDC00, 0x61]⟩ 0 ∧
    (0x10000 ≤ char32At ⟨[0xD800, 0xDC00, 0x61]⟩ 0 ↔
      u16Width ⟨[0xD800, 0xDC00, 0x61]⟩ 0 = 2) :=
  c2_amended_codeunit_positions ⟨[0xD800, 0xDC00, 0x61]⟩ 0
    (by decide) (by decide)

/-- C9: at or past the end of the input, peek() and peek(n) return the
sentinel 0xFFFF (they are total functions of the unchanged cursor — no
cursor mutation, no error signal); the code unit 0xFFFF can also occur
in-bounds, where peek() returns it as well, so peek() = 0xFFFF does not
imply end-of-input; inBounds() is false exactly when the index is at or
past the end, distinguishing the two cases. -/
theorem c9_peek_sentinel :
    (∀ p : Cursor, p.source.length ≤ p.index →
       p.peek = 0xFFFF ∧ ∀ n, p.peekN n = 0xFFFF) ∧
    (Cursor.peek ⟨⟨[0xFFFF, 0x61]⟩, 0⟩ = 0xFFFF ∧
     Cursor.inBounds ⟨⟨[0xFFFF, 0x61]⟩, 0⟩ = true ∧
     Cursor.peek ⟨⟨[0xFFFF, 0x61]⟩, 2⟩ = 0xFFFF ∧
     Cursor.inBounds ⟨⟨[0xFFFF, 0x61]⟩, 2⟩ = false) ∧
    (∀ p : Cursor, p.inBounds = false ↔ p.source.length ≤ p.index) := by
  refine ⟨?_, by decide, ?_⟩
  · intro p h
    constructor
    · rw [Cursor.peek, char32At, if_neg (by omega)]
    · intro n
      rw [Cursor.peekN, moveIndex32, Nat.min_eq_right h,
        fwdN_of_le _ _ (Nat.le_refl _) n, char32At, if_neg (by omega)]
  · intro p
    rw [Cursor.inBounds]
    simp [Nat.not_lt]

/-- Witness for C9: a cursor past the end of a one-unit string peeks the
sentinel. -/
theorem c9_witness : Cursor.peek ⟨⟨[0x61]⟩, 5⟩ = 0xFFFF :=
  (c9_peek_sentinel.1 ⟨⟨[0x61]⟩, 5⟩ (by decide)).1

theorem trackGo_line (l : List Char) :
    ∀ (pe : MessageParseError) (i : Nat),
      (trackGo pe i l).line = pe.line + l.count LF := by
  induction l with
  | nil => intro pe i; simp [trackGo]
  | cons c r ih =>
    intro pe i
    rw [trackGo, ih]
    by_cases hc : c = LF
    · simp [maybeAdvanceLine, hc, List.count_cons]
      omega
    · simp [maybeAdvanceLine, hc, List.count_cons, Ne.symm hc]

theorem trackGo_lenBefore (l : List Char) :
    ∀ (pe : MessageParseError) (i : Nat),
      (trackGo pe i l).lengthBeforeCurrentLine =
        if LF ∈ l then i + lenBeforeSpec l
        else pe.lengthBeforeCurrentLine := by
  induction l with
  | nil => intro pe i; simp [trackGo]
  | cons c r ih =>
    intro pe i
    rw [trackGo, ih]
    by_cases hc : c = LF
    · have hm : LF ∈ c :: r := List.mem_cons.mpr (Or.inl hc.symm)
      rw [if_pos hm, lenBeforeSpec]
      by_cases hr : LF ∈ r
      · rw [if_pos hr, if_pos hr]
        omega
      · rw [if_neg hr, if_neg hr, if_pos hc, maybeAdvanceLine, if_pos hc]
    · have hkey : (maybeAdvanceLine pe i c).lengthBeforeCurrentLine =
          pe.lengthBeforeCurrentLine := by
        rw [maybeAdvanceLine, if_neg hc]
      by_cases hr : LF ∈ r
      · have hm : LF ∈ c :: r := List.mem_cons_of_mem c hr
        rw [if_pos hr, if_pos hm, lenBeforeSpec, if_pos hr]
        omega
      · have hm : LF ∉ c :: r := by
          intro hmem
          rcases List.mem_cons.mp hmem with h | h
          · exact hc h.symm
          · exact hr h
        rw [if_neg hr, if_neg hm, hkey]

theorem lenBeforeSpec_of_no_lf (l : List Char) (h : LF ∉ l) :
    lenBeforeSpec l = 0 := by
  cases l with
  | nil => rfl
  | cons c r =>
    rw [lenBeforeSpec]
    rw [if_neg (fun hm => h (List.mem_cons_of_mem c hm)),
      if_neg (fun hc => h (List.mem_cons.mpr (Or.inl hc.symm)))]

/-- C10: the record invariant — line == 0 implies
lengthBeforeCurrentLine == 0 — is established by the constructor's
zero-initialization and preserved by the line-advance and error-recording
updates; moreover in every state reached by tracking a consumed character
list, lengthBeforeCurrentLine equals the number of characters consumed
before the current line's start, newline characters included. -/
theorem c10_lengthBeforeCurrentLine_invariant :
    (initMessageParseError.line = 0 ∧
     initMessageParseError.lengthBeforeCurrentLine = 0) ∧
    (∀ (pe : MessageParseError) (i : Nat) (c : Char),
       (pe.line = 0 → pe.lengthBeforeCurrentLine = 0) →
       ((maybeAdvanceLine pe i c).line = 0 →
         (maybeAdvanceLine pe i c).lengthBeforeCurrentLine = 0)) ∧
    (∀ (pe : MessageParseError) (i : Nat),
       (pe.line = 0 → pe.lengthBeforeCurrentLine = 0) →
       ((setParseError pe i).line = 0 →
         (setParseError pe i).lengthBeforeCurrentLine = 0)) ∧
    (∀ l : List Char,
       ((track l).line = 0 → (track l).lengthBeforeCurrentLine = 0) ∧
       (track l).lengthBeforeCurrentLine = lenBeforeSpec l) := by
  refine ⟨⟨rfl, rfl⟩, ?_, ?_, ?_⟩
  · intro pe i c hinv
    rw [maybeAdvanceLine]
    by_cases hc : c = LF
    · rw [if_pos hc]
      intro h
      exact absurd h (by simp)
    · rw [if_neg hc]
      exact hinv
  · intro pe i hinv
    exact hinv
  · intro l
    have hline := trackGo_line l initMessageParseError 0
    have hlen := trackGo_lenBefore l initMessageParseError 0
    rw [track] at *
    by_cases hm : LF ∈ l
    · constructor
      · intro h0
        rw [hline] at h0
        simp [initMessageParseError] at h0
        exact absurd hm (by simpa using List.count_eq_zero.mp h0)
      · rw [hlen, if_pos hm]
        omega
    · constructor
      · intro _
        rw [hlen, if_neg hm]
        rfl
      · rw [hlen, if_neg hm, lenBeforeSpec_of_no_lf l hm]
        rfl

/-- Witness for C10: concrete tracked inputs — no newline keeps the count
at 0, and after the input a-newline-b the characters before the current
line are the first two, newline included. -/
theorem c10_witness :
    (track ['a']).lengthBeforeCurrentLine = 0 ∧
    (track ['a', LF, 'b']).lengthBeforeCurrentLine =
      lenBeforeSpec ['a', LF, 'b'] ∧
    (track ['a', LF, 'b']).lengthBeforeCurrentLine = 2 := by
  refine ⟨(c10_lengthBeforeCurrentLine_invariant.2.2.2 ['a']).1 (by decide),
    (c10_lengthBeforeCurrentLine_invariant.2.2.2 ['a', LF, 'b']).2, by decide⟩

/-! ## Helper lemmas: characters, runs and whitespace collapsing -/

theorem char_eq_iff_toNat (c d : Char) : c = d ↔ c.toNat = d.toNat := by
  constructor
  · intro h
    rw [h]
  · intro h
    have hv : c.val = d.val := by
      apply UInt32.eq_of_toBitVec_eq
      apply BitVec.eq_of_toNat_eq
      exact h
    exact Char.eq_of_val_eq hv

theorem ows_toNat (c : Char) (h : isOWSChar c = true) :
    c.toNat = 0x20 ∨ c.toNat = 0x9 ∨ c.toNat = 0xD ∨ c.toNat = 0xA ∨
    c.toNat = 0x3000 ∨ c.toNat = 0x61C ∨ c.toNat = 0x200E ∨ c.toNat = 0x200F ∨
    (0x2066 ≤ c.toNat ∧ c.toNat ≤ 0x2069) := by
  simp only [isOWSChar, isWSChar, isBidiChar, Bool.or_eq_true, Bool.and_eq_true,
    decide_eq_true_eq] at h
  tauto

theorem nameChar_toNat (c : Char) (h : isNameChar c = true) :
    (0x61 ≤ c.toNat ∧ c.toNat ≤ 0x7A) ∨ (0x41 ≤ c.toNat ∧ c.toNat ≤ 0x5A) ∨
    c.toNat = 0x5F ∨ (0x30 ≤ c.toNat ∧ c.toNat ≤ 0x39) ∨ c.toNat = 0x2D ∨
    c.toNat = 0x2E := by
  simp only [isNameChar, isNameStartChar, isAlphaChar, isDigitChar,
    Bool.or_eq_true, Bool.and_eq_true, decide_eq_true_eq] at h
  tauto

theorem ows_ne_rbrace (c : Char) (h : isOWSChar c = true) : c ≠ '}' := by
  rw [Ne, char_eq_iff_toNat]
  have he : ('}' : Char).toNat = 125 := rfl
  rw [he]
  have := ows_toNat c h
  omega

theorem ows_ne_bar (c : Char) (h : isOWSChar c = true) : c ≠ '|' := by
  rw [Ne, char_eq_iff_toNat]
  have he : ('|' : Char).toNat = 124 := rfl
  rw [he]
  have := ows_toNat c h
  omega

theorem ows_not_nameChar (c : Char) (h : isOWSChar c = true) :
    isNameChar c = false := by
  cases hx : isNameChar c with
  | false => rfl
  | true =>
    exfalso
    have h1 := nameChar_toNat c hx
    have h2 := ows_toNat c h
    omega

theorem nameStart_ne_bar (c : Char) (h : isNameStartChar c = true) : c ≠ '|' := by
  have hn : isNameChar c = true := by
    rw [isNameChar, h]
    rfl
  rw [Ne, char_eq_iff_toNat]
  have he : ('|' : Char).toNat = 124 := rfl
  rw [he]
  have := nameChar_toNat c hn
  omega

theorem nameStart_ne_dollar (c : Char) (h : isNameStartChar c = true) : c ≠ '$' := by
  have hn : isNameChar c = true := by
    rw [isNameChar, h]
    rfl
  rw [Ne, char_eq_iff_toNat]
  have he : ('$' : Char).toNat = 36 := rfl
  rw [he]
  have := nameChar_toNat c hn
  omega

theorem nameStart_not_ows (c : Char) (h : isNameStartChar c = true) :
    isOWSChar c = false := by
  have hn : isNameChar c = true := by
    rw [isNameChar, h]
    rfl
  cases hx : isOWSChar c with
  | false => rfl
  | true =>
    exfalso
    have h1 := nameChar_toNat c hn
    have h2 := ows_toNat c hx
    omega

theorem nameChar_ne_rbrace (c : Char) (h : isNameChar c = true) : c ≠ '}' := by
  rw [Ne, char_eq_iff_toNat]
  have he : ('}' : Char).toNat = 125 := rfl
  rw [he]
  have := nameChar_toNat c h
  omega

theorem nameChar_ne_bar (c : Char) (h : isNameChar c = true) : c ≠ '|' := by
  rw [Ne, char_eq_iff_toNat]
  have he : ('|' : Char).toNat = 124 := rfl
  rw [he]
  have := nameChar_toNat c h
  omega

theorem headNot_nil (p : Char → Bool) : HeadNot p [] := by
  intro c hc
  simp at hc

theorem headNot_cons (p : Char → Bool) (c : Char) (k : List Char)
    (h : p c = false) : HeadNot p (c :: k) := by
  intro d hd
  simp only [List.head?_cons, Option.some.injEq] at hd
  rw [← hd]
  exact h

theorem takeWhile_append_all (p : Char → Bool) (run k : List Char)
    (h : ∀ c ∈ run, p c = true) :
    (run ++ k).takeWhile p = run ++ k.takeWhile p := by
  induction run with
  | nil => simp
  | cons x r ih =>
    have hx : p x = true := h x (List.mem_cons_self x r)
    simp only [List.cons_append, List.takeWhile_cons, hx, if_true]
    rw [ih (fun c hc => h c (List.mem_cons_of_mem x hc))]

theorem dropWhile_append_all (p : Char → Bool) (run k : List Char)
    (h : ∀ c ∈ run, p c = true) :
    (run ++ k).dropWhile p = k.dropWhile p := by
  induction run with
  | nil => simp
  | cons x r ih =>
    have hx : p x = true := h x (List.mem_cons_self x r)
    simp only [List.cons_append, List.dropWhile_cons, hx, if_true]
    exact ih (fun c hc => h c (List.mem_cons_of_mem x hc))

theorem takeWhile_eq_nil_of_head (p : Char → Bool) (k : List Char)
    (hk : HeadNot p k) : k.takeWhile p = [] := by
  cases k with
  | nil => rfl
  | cons c r =>
    have hc : p c = false := hk c rfl
    simp [List.takeWhile_cons, hc]

theorem dropWhile_eq_self_of_head (p : Char → Bool) (k : List Char)
    (hk : HeadNot p k) : k.dropWhile p = k := by
  cases k with
  | nil => rfl
  | cons c r =>
    have hc : p c = false := hk c rfl
    simp [List.dropWhile_cons, hc]

theorem head_dropWhile_not (p : Char → Bool) (l : List Char) :
    HeadNot p (l.dropWhile p) := by
  induction l with
  | nil => exact headNot_nil p
  | cons x r ih =>
    by_cases hx : p x = true
    · rw [List.dropWhile_cons, if_pos hx]
      exact ih
    · have hx' : p x = false := by
        cases h : p x
        · rfl
        · exact absurd h hx
      rw [List.dropWhile_cons, if_neg (by rw [hx']; exact Bool.false_ne_true)]
      exact headNot_cons p x r hx'

theorem splitOWS_decomp (l : List Char) :
    l = (splitOWS l).1 ++ (splitOWS l).2 :=
  (List.takeWhile_append_dropWhile isOWSChar l).symm

theorem splitOWS_run_ows (l : List Char) :
    ∀ c ∈ (splitOWS l).1, isOWSChar c = true :=
  fun _ hc => List.mem_takeWhile_imp hc

theorem splitOWS_rest_head (l : List Char) :
    HeadNot isOWSChar (splitOWS l).2 :=
  head_dropWhile_not isOWSChar l

theorem splitOWS_reparse (run k : List Char)
    (hrun : ∀ c ∈ run, isOWSChar c = true) (hk : HeadNot isOWSChar k) :
    splitOWS (run ++ k) = (run, k) := by
  rw [splitOWS, takeWhile_append_all _ _ _ hrun, dropWhile_append_all _ _ _ hrun,
    takeWhile_eq_nil_of_head _ _ hk, dropWhile_eq_self_of_head _ _ hk,
    List.append_nil]

theorem collapseGo_mem (l : List Char) :
    ∀ (b : Bool) (c : Char), c ∈ collapseGo b l → c = ' ' ∨ c ∈ l := by
  induction l with
  | nil =>
    intro b c hc
    simp [collapseGo] at hc
  | cons x r ih =>
    intro b c hc
    rw [collapseGo] at hc
    by_cases hx : isWSChar x = true
    · rw [if_pos hx] at hc
      cases b with
      | true =>
        rcases ih true c hc with h | h
        · exact Or.inl h
        · exact Or.inr (List.mem_cons_of_mem x h)
      | false =>
        rcases List.mem_cons.mp hc with h | h
        · exact Or.inl h
        · rcases ih true c h with h2 | h2
          · exact Or.inl h2
          · exact Or.inr (List.mem_cons_of_mem x h2)
    · rw [if_neg hx] at hc
      rcases List.mem_cons.mp hc with h | h
      · exact Or.inr (h ▸ List.mem_cons_self x r)
      · rcases ih false c h with h2 | h2
        · exact Or.inl h2
        · exact Or.inr (List.mem_cons_of_mem x h2)

theorem collapseRun_ows (run : List Char)
    (h : ∀ c ∈ run, isOWSChar c = true) :
    ∀ c ∈ collapseRun run, isOWSChar c = true := by
  intro c hc
  rcases collapseGo_mem run false c hc with h2 | h2
  · rw [h2]
    rfl
  · exact h c h2

theorem collapseGo_idem (l : List Char) :
    collapseGo true (collapseGo true l) = collapseGo true l ∧
    collapseGo false (collapseGo false l) = collapseGo false l := by
  induction l with
  | nil => exact ⟨rfl, rfl⟩
  | cons x r ih =>
    by_cases hx : isWSChar x = true
    · constructor
      · rw [collapseGo, if_pos hx]
        exact ih.1
      · rw [collapseGo, if_pos hx]
        show collapseGo false (' ' :: collapseGo true r) = _
        rw [collapseGo, if_pos (by decide)]
        rw [ih.1]
    · constructor
      · rw [collapseGo, if_neg hx]
        show collapseGo true (x :: collapseGo false r) = _
        rw [collapseGo, if_neg hx, ih.2]
      · rw [collapseGo, if_neg hx]
        show collapseGo false (x :: collapseGo false r) = _
        rw [collapseGo, if_neg hx, ih.2]

theorem collapseRun_idem (l : List Char) :
    collapseRun (collapseRun l) = collapseRun l :=
  (collapseGo_idem l).2

theorem collapseGo_length (l : List Char) :
    ∀ b, (collapseGo b l).length ≤ l.length := by
  induction l with
  | nil =>
    intro b
    simp [collapseGo]
  | cons x r ih =>
    intro b
    rw [collapseGo]
    by_cases hx : isWSChar x = true
    · rw [if_pos hx]
      cases b with
      | true =>
        simp only [List.length_cons]
        exact Nat.le_succ_of_le (ih true)
      | false =>
        simp only [List.length_cons]
        exact Nat.succ_le_succ (ih true)
    · rw [if_neg hx]
      simp only [List.length_cons]
      exact Nat.succ_le_succ (ih false)

/-! ## Lemmas: quoted literals, names, operands -/

theorem scanQuoted_cons_bar (r : List Char) :
    scanQuoted ('|' :: r) = .ok (([], ['|']), r) := by
  rw [scanQuoted.eq_def]
  simp

theorem scanQuoted_cons_esc (c2 : Char) (r2 : List Char) :
    scanQuoted ('\\' :: c2 :: r2) =
      if isEscapableChar c2 then
        match scanQuoted r2 with
        | .ok ((v, src), rest) => .ok ((c2 :: v, '\\' :: c2 :: src), rest)
        | .fail e => .fail e
      else .fail (c2 :: r2) := by
  rw [scanQuoted.eq_def]
  simp

theorem scanQuoted_bslash_nil : scanQuoted ['\\'] = .fail [] := by
  rw [scanQuoted.eq_def]
  simp

theorem scanQuoted_cons_other (c : Char) (r : List Char)
    (h1 : ¬ c = '|') (h2 : ¬ c = '\\') :
    scanQuoted (c :: r) =
      match scanQuoted r with
      | .ok ((v, src), rest) => .ok ((c :: v, c :: src), rest)
      | .fail e => .fail e := by
  rw [scanQuoted.eq_def]
  simp [h1, h2]

theorem skipQuoted_cons_bar (r : List Char) : skipQuoted ('|' :: r) = some r := by
  rw [skipQuoted.eq_def]
  simp

theorem skipQuoted_cons_bslash (c2 : Char) (r2 : List Char) :
    skipQuoted ('\\' :: c2 :: r2) = skipQuoted r2 := by
  rw [skipQuoted.eq_def]
  simp

theorem skipQuoted_cons_other (c : Char) (r : List Char)
    (h1 : ¬ c = '|') (h2 : ¬ c = '\\') :
    skipQuoted (c :: r) = skipQuoted r := by
  rw [skipQuoted.eq_def]
  simp [h1, h2]

theorem scanQuoted_decomp (l : List Char) :
    ∀ v src rest, scanQuoted l = .ok ((v, src), rest) →
      l = src ++ rest ∧ src ≠ [] := by
  induction l using scanQuoted.induct with
  | case1 =>
    intro v src rest h
    exact absurd h (by rw [scanQuoted]; simp)
  | case2 r =>
    intro v src rest h
    rw [scanQuoted_cons_bar] at h
    simp only [PResult.ok.injEq, Prod.mk.injEq] at h
    obtain ⟨⟨hv, hsrc⟩, hrest⟩ := h
    subst hsrc
    subst hrest
    exact ⟨rfl, by simp⟩
  | case3 hne =>
    intro v src rest h
    rw [scanQuoted_bslash_nil] at h
    exact absurd h (by simp)
  | case4 c2 r2 hesc v0 src0 rest0 hscan hne ih =>
    intro v src rest h
    rw [scanQuoted_cons_esc, if_pos hesc, hscan] at h
    simp only [PResult.ok.injEq, Prod.mk.injEq] at h
    obtain ⟨⟨hv, hsrc⟩, hrest⟩ := h
    subst hsrc
    subst hrest
    obtain ⟨hdec, _⟩ := ih v0 src0 rest0 hscan
    constructor
    · rw [List.cons_append, List.cons_append, ← hdec]
    · simp
  | case5 c2 r2 hesc e hscan hne ih =>
    intro v src rest h
    rw [scanQuoted_cons_esc, if_pos hesc, hscan] at h
    exact absurd h (by simp)
  | case6 c2 r2 hesc hne =>
    intro v src rest h
    rw [scanQuoted_cons_esc, if_neg hesc] at h
    exact absurd h (by simp)
  | case7 c r hne1 hne2 v0 src0 rest0 hscan ih =>
    intro v src rest h
    rw [scanQuoted_cons_other c r hne1 hne2, hscan] at h
    simp only [PResult.ok.injEq, Prod.mk.injEq] at h
    obtain ⟨⟨hv, hsrc⟩, hrest⟩ := h
    subst hsrc
    subst hrest
    obtain ⟨hdec, _⟩ := ih v0 src0 rest0 hscan
    constructor
    · rw [List.cons_append, ← hdec]
    · simp
  | case8 c r hne1 hne2 e hscan ih =>
    intro v src rest h
    rw [scanQuoted_cons_other c r hne1 hne2, hscan] at h
    exact absurd h (by simp)

theorem scanQuoted_reparse (l : List Char) :
    ∀ v src rest, scanQuoted l = .ok ((v, src), rest) →
      ∀ k, scanQuoted (src ++ k) = .ok ((v, src), k) := by
  induction l using scanQuoted.induct with
  | case1 =>
    intro v src rest h
    exact absurd h (by rw [scanQuoted]; simp)
  | case2 r =>
    intro v src rest h
    rw [scanQuoted_cons_bar] at h
    simp only [PResult.ok.injEq, Prod.mk.injEq] at h
    obtain ⟨⟨hv, hsrc⟩, hrest⟩ := h
    subst hv
    subst hsrc
    intro k
    rw [List.cons_append, List.nil_append, scanQuoted_cons_bar]
  | case3 hne =>
    intro v src rest h
    rw [scanQuoted_bslash_nil] at h
    exact absurd h (by simp)
  | case4 c2 r2 hesc v0 src0 rest0 hscan hne ih =>
    intro v src rest h
    rw [scanQuoted_cons_esc, if_pos hesc, hscan] at h
    simp only [PResult.ok.injEq, Prod.mk.injEq] at h
    obtain ⟨⟨hv, hsrc⟩, hrest⟩ := h
    subst hv
    subst hsrc
    intro k
    have hre := ih v0 src0 rest0 hscan k
    rw [List.cons_append, List.cons_append, scanQuoted_cons_esc, if_pos hesc, hre]
  | case5 c2 r2 hesc e hscan hne ih =>
    intro v src rest h
    rw [scanQuoted_cons_esc, if_pos hesc, hscan] at h
    exact absurd h (by simp)
  | case6 c2 r2 hesc hne =>
    intro v src rest h
    rw [scanQuoted_cons_esc, if_neg hesc] at h
    exact absurd h (by simp)
  | case7 c r hne1 hne2 v0 src0 rest0 hscan ih =>
    intro v src rest h
    rw [scanQuoted_cons_other c r hne1 hne2, hscan] at h
    simp only [PResult.ok.injEq, Prod.mk.injEq] at h
    obtain ⟨⟨hv, hsrc⟩, hrest⟩ := h
    subst hv
    subst hsrc
    intro k
    have hre := ih v0 src0 rest0 hscan k
    rw [List.cons_append, scanQuoted_cons_other c _ hne1 hne2, hre]
  | case8 c r hne1 hne2 e hscan ih =>
    intro v src rest h
    rw [scanQuoted_cons_other c r hne1 hne2, hscan] at h
    exact absurd h (by simp)

theorem skipQuoted_of_scan (l : List Char) :
    ∀ v src rest, scanQuoted l = .ok ((v, src), rest) →
      ∀ k, skipQuoted (src ++ k) = some k := by
  induction l using scanQuoted.induct with
  | case1 =>
    intro v src rest h
    exact absurd h (by rw [scanQuoted]; simp)
  | case2 r =>
    intro v src rest h
    rw [scanQuoted_cons_bar] at h
    simp only [PResult.ok.injEq, Prod.mk.injEq] at h
    obtain ⟨⟨hv, hsrc⟩, hrest⟩ := h
    subst hsrc
    intro k
    rw [List.cons_append, List.nil_append, skipQuoted_cons_bar]
  | case3 hne =>
    intro v src rest h
    rw [scanQuoted_bslash_nil] at h
    exact absurd h (by simp)
  | case4 c2 r2 hesc v0 src0 rest0 hscan hne ih =>
    intro v src rest h
    rw [scanQuoted_cons_esc, if_pos hesc, hscan] at h
    simp only [PResult.ok.injEq, Prod.mk.injEq] at h
    obtain ⟨⟨hv, hsrc⟩, hrest⟩ := h
    subst hsrc
    intro k
    have hre := ih v0 src0 rest0 hscan k
    rw [List.cons_append, List.cons_append, skipQuoted_cons_bslash, hre]
  | case5 c2 r2 hesc e hscan hne ih =>
    intro v src rest h
    rw [scanQuoted_cons_esc, if_pos hesc, hscan] at h
    exact absurd h (by simp)
  | case6 c2 r2 hesc hne =>
    intro v src rest h
    rw [scanQuoted_cons_esc, if_neg hesc] at h
    exact absurd h (by simp)
  | case7 c r hne1 hne2 v0 src0 rest0 hscan ih =>
    intro v src rest h
    rw [scanQuoted_cons_other c r hne1 hne2, hscan] at h
    simp only [PResult.ok.injEq, Prod.mk.injEq] at h
    obtain ⟨⟨hv, hsrc⟩, hrest⟩ := h
    subst hsrc
    intro k
    have hre := ih v0 src0 rest0 hscan k
    rw [List.cons_append, skipQuoted_cons_other c _ hne1 hne2, hre]
  | case8 c r hne1 hne2 e hscan ih =>
    intro v src rest h
    rw [scanQuoted_cons_other c r hne1 hne2, hscan] at h
    exact absurd h (by simp)

theorem parseName_spec (l n rest : List Char)
    (h : parseName l = .ok (n, rest)) :
    l = n ++ rest ∧
    (∃ c t, n = c :: t ∧ isNameStartChar c = true ∧
      (∀ x ∈ t, isNameChar x = true)) ∧
    HeadNot isNameChar rest := by
  cases l with
  | nil => simp [parseName] at h
  | cons c r =>
    rw [parseName] at h
    by_cases hc : isNameStartChar c = true
    · rw [if_pos hc] at h
      simp only [PResult.ok.injEq, Prod.mk.injEq] at h
      obtain ⟨hn, hrest⟩ := h
      subst hn
      subst hrest
      refine ⟨?_, ⟨c, _, rfl, hc, ?_⟩, ?_⟩
      · rw [List.cons_append, List.takeWhile_append_dropWhile]
      · exact fun x hx => List.mem_takeWhile_imp hx
      · exact head_dropWhile_not _ _
    · rw [if_neg hc] at h
      exact absurd h (by simp)

theorem parseName_reparse (l n rest : List Char)
    (h : parseName l = .ok (n, rest)) :
    ∀ k, HeadNot isNameChar k → parseName (n ++ k) = .ok (n, k) := by
  obtain ⟨hdec, ⟨c, t, hn, hstart, htchars⟩, hrest⟩ := parseName_spec l n rest h
  intro k hk
  subst hn
  rw [List.cons_append, parseName, if_pos hstart,
    takeWhile_append_all _ _ _ htchars, takeWhile_eq_nil_of_head _ _ hk,
    dropWhile_append_all _ _ _ htchars, dropWhile_eq_self_of_head _ _ hk,
    List.append_nil]

theorem nameStart_isNameChar (c : Char) (h : isNameStartChar c = true) :
    isNameChar c = true := by
  rw [isNameChar, h]
  rfl

theorem parseName_all_nameChar (l n rest : List Char)
    (h : parseName l = .ok (n, rest)) :
    ∀ x ∈ n, isNameChar x = true := by
  obtain ⟨_, ⟨c, t, hn, hstart, htchars⟩, _⟩ := parseName_spec l n rest h
  subst hn
  intro x hx
  rcases List.mem_cons.mp hx with h1 | h1
  · exact h1 ▸ nameStart_isNameChar c hstart
  · exact htchars x h1

/-! ## Lemmas: span skipping and operands -/

theorem skipSpan_zero (l : List Char) : skipSpan 0 l = none := by
  rw [skipSpan.eq_def]

theorem skipSpan_succ_nil (fuel : Nat) : skipSpan (fuel + 1) [] = none := by
  rw [skipSpan.eq_def]

theorem skipSpan_succ_rbrace (fuel : Nat) (r : List Char) :
    skipSpan (fuel + 1) ('}' :: r) = some r := by
  rw [skipSpan.eq_def]
  simp

theorem skipSpan_succ_bar (fuel : Nat) (r : List Char) :
    skipSpan (fuel + 1) ('|' :: r) =
      match skipQuoted r with
      | some r2 => skipSpan fuel r2
      | none => none := by
  rw [skipSpan.eq_def]
  simp

theorem skipSpan_succ_other (fuel : Nat) (c : Char) (r : List Char)
    (h1 : ¬ c = '}') (h2 : ¬ c = '|') :
    skipSpan (fuel + 1) (c :: r) = skipSpan fuel r := by
  rw [skipSpan.eq_def]
  simp [h1, h2]

theorem skipSpan_mono (f : Nat) :
    ∀ f' l out, f ≤ f' → skipSpan f l = some out → skipSpan f' l = some out := by
  induction f with
  | zero =>
    intro f' l out hle h
    rw [skipSpan_zero] at h
    exact absurd h (by simp)
  | succ f ih =>
    intro f' l out hle h
    obtain ⟨f2, rfl⟩ : ∃ f2, f' = f2 + 1 := ⟨f' - 1, by omega⟩
    cases l with
    | nil =>
      rw [skipSpan_succ_nil] at h
      exact absurd h (by simp)
    | cons c r =>
      by_cases h1 : c = '}'
      · subst h1
        rw [skipSpan_succ_rbrace] at h ⊢
        exact h
      · by_cases h2 : c = '|'
        · subst h2
          rw [skipSpan_succ_bar] at h ⊢
          cases hsq : skipQuoted r with
          | none =>
            rw [hsq] at h
            exact absurd h (by simp)
          | some r2 =>
            rw [hsq] at h
            exact ih f2 r2 out (by omega) h
        · rw [skipSpan_succ_other f c r h1 h2] at h
          rw [skipSpan_succ_other f2 c r h1 h2]
          exact ih f2 r out (by omega) h

theorem skipSpan_chars (run : List Char) :
    ∀ k f out, (∀ c ∈ run, ¬ c = '}' ∧ ¬ c = '|') →
      skipSpan f k = some out →
      skipSpan (run.length + f) (run ++ k) = some out := by
  induction run with
  | nil =>
    intro k f out hrun h
    simpa using h
  | cons c run2 ih =>
    intro k f out hrun h
    have hc := hrun c (List.mem_cons_self c run2)
    have hlen : (c :: run2).length + f = (run2.length + f) + 1 := by
      simp only [List.length_cons]
      omega
    rw [hlen, List.cons_append, skipSpan_succ_other _ _ _ hc.1 hc.2]
    exact ih k f out (fun d hd => hrun d (List.mem_cons_of_mem c hd)) h

/-! ## Lemmas: character classes, span consumption, the scanners and
sub-parsers of the placeholder grammar -/

theorem headNot_append (p : Char → Bool) (xs ys : List Char)
    (hx : ∀ c ∈ xs, p c = false) (hy : HeadNot p ys) :
    HeadNot p (xs ++ ys) := by
  cases xs with
  | nil => simpa using hy
  | cons x t =>
    exact headNot_cons p x (t ++ ys) (hx x (List.mem_cons_self x t))

theorem ne_of_pred (p : Char → Bool) (c d : Char) (hc : p c = true)
    (hd : p d = false) : ¬ c = d := by
  intro he
  rw [he] at hc
  rw [hd] at hc
  exact Bool.false_ne_true hc

theorem headNot_mono (p q : Char → Bool) (himp : ∀ c, q c = true → p c = true)
    (k : List Char) (hk : HeadNot p k) : HeadNot q k := by
  intro c hc
  cases hq : q c with
  | false => rfl
  | true =>
    have hp := himp c hq
    rw [hk c hc] at hp
    exact absurd hp Bool.false_ne_true

theorem identExt_false (c : Char) (h : isIdentExt c = false) :
    isNameChar c = false ∧ ¬ c = ':' ∧ ¬ c = '=' := by
  rw [isIdentExt] at h
  simp only [Bool.or_eq_false_iff, decide_eq_false_iff_not] at h
  exact ⟨h.1.1, h.1.2, h.2⟩

theorem identChar_false (c : Char) (h : isIdentChar c = false) :
    isNameChar c = false ∧ ¬ c = ':' := by
  rw [isIdentChar] at h
  simp only [Bool.or_eq_false_iff, decide_eq_false_iff_not] at h
  exact h

theorem identExt_of_identChar (c : Char) (h : isIdentChar c = true) :
    isIdentExt c = true := by
  rw [isIdentChar] at h
  rw [isIdentExt, h]
  rfl

theorem identChar_of_nameChar (c : Char) (h : isNameChar c = true) :
    isIdentChar c = true := by
  rw [isIdentChar, h]
  rfl

theorem identExt_of_nameChar (c : Char) (h : isNameChar c = true) :
    isIdentExt c = true := by
  rw [isIdentExt, h]
  rfl

theorem digit_isNameChar (c : Char) (h : isDigitChar c = true) :
    isNameChar c = true := by
  rw [isNameChar]
  simp [h]

theorem digit_not_ows (c : Char) (h : isDigitChar c = true) :
    isOWSChar c = false := by
  have hd : 0x30 ≤ c.toNat ∧ c.toNat ≤ 0x39 := by
    rw [isDigitChar] at h
    simp at h
    exact h
  cases how : isOWSChar c with
  | false => rfl
  | true =>
    have := ows_toNat c how
    omega

theorem digit_not_nameStart (c : Char) (h : isDigitChar c = true) :
    isNameStartChar c = false := by
  have hd : 0x30 ≤ c.toNat ∧ c.toNat ≤ 0x39 := by
    rw [isDigitChar] at h
    simp at h
    exact h
  cases hns : isNameStartChar c with
  | false => rfl
  | true =>
    rw [isNameStartChar, isAlphaChar] at hns
    simp at hns
    omega

theorem litStart_not_ows (c : Char) (h : isLitStart c = true) :
    isOWSChar c = false := by
  rw [isLitStart] at h
  simp only [Bool.or_eq_true, decide_eq_true_eq] at h
  rcases h with ((h1 | h2) | h3) | h4
  · subst h1
    decide
  · exact nameStart_not_ows c h2
  · subst h3
    decide
  · exact digit_not_ows c h4

theorem opStart_not_ows (c : Char) (h : isOpStart c = true) :
    isOWSChar c = false := by
  rw [isOpStart] at h
  simp only [Bool.or_eq_true, decide_eq_true_eq] at h
  rcases h with h1 | h2
  · subst h1
    decide
  · exact litStart_not_ows c h2

theorem exprStart_not_ows (c : Char) (h : isExprStart c = true) :
    isOWSChar c = false := by
  rw [isExprStart] at h
  simp only [Bool.or_eq_true, decide_eq_true_eq] at h
  rcases h with h1 | h2
  · subst h1
    decide
  · exact opStart_not_ows c h2

theorem ows_not_identExt (c : Char) (h : isOWSChar c = true) :
    isIdentExt c = false := by
  rw [isIdentExt]
  simp [ows_not_nameChar c h, ne_of_pred isOWSChar c ':' h (by decide),
    ne_of_pred isOWSChar c '=' h (by decide)]

theorem ows_not_identChar (c : Char) (h : isOWSChar c = true) :
    isIdentChar c = false := by
  rw [isIdentChar]
  simp [ows_not_nameChar c h, ne_of_pred isOWSChar c ':' h (by decide)]

theorem identChar_false_of_ext (c : Char) (h : isIdentExt c = false) :
    isIdentChar c = false := by
  obtain ⟨h1, h2, h3⟩ := identExt_false c h
  rw [isIdentChar]
  simp [h1, h2]

theorem opStart_of_litStart (c : Char) (h : isLitStart c = true) :
    isOpStart c = true := by
  rw [isOpStart, h]
  simp

theorem exprStart_of_opStart (c : Char) (h : isOpStart c = true) :
    isExprStart c = true := by
  rw [isExprStart, h]
  simp

theorem spanConsume_nil : SpanConsume [] := by
  intro f k out h
  simpa using h

theorem spanConsume_chars (a : List Char)
    (h : ∀ c ∈ a, ¬ c = '}' ∧ ¬ c = '|') : SpanConsume a := by
  intro f k out hsk
  exact skipSpan_chars a k f out h hsk

theorem spanConsume_ows (run : List Char)
    (h : ∀ c ∈ run, isOWSChar c = true) : SpanConsume run :=
  spanConsume_chars run
    (fun c hc => ⟨ows_ne_rbrace c (h c hc), ows_ne_bar c (h c hc)⟩)

theorem spanConsume_one (c : Char) (h1 : ¬ c = '}') (h2 : ¬ c = '|') :
    SpanConsume [c] := by
  refine spanConsume_chars [c] ?_
  intro d hd
  rw [List.mem_singleton] at hd
  subst hd
  exact ⟨h1, h2⟩

theorem spanConsume_append (a b : List Char) (ha : SpanConsume a)
    (hb : SpanConsume b) : SpanConsume (a ++ b) := by
  intro f k out hsk
  have h1 := hb f k out hsk
  have h2 := ha (b.length + f) (b ++ k) out h1
  have hlen : (a ++ b).length + f = a.length + (b.length + f) := by
    simp only [List.length_append]
    omega
  rw [hlen, List.append_assoc]
  exact h2

theorem spanConsume_quoted (l v src rest : List Char)
    (h : scanQuoted l = .ok ((v, src), rest)) : SpanConsume ('|' :: src) := by
  intro f k out hsk
  have hq := skipQuoted_of_scan l v src rest h k
  have hlen : ('|' :: src).length + f = (src.length + f) + 1 := by
    simp only [List.length_cons]
    omega
  rw [hlen, List.cons_append, skipSpan_succ_bar, hq]
  exact skipSpan_mono f (src.length + f) k out (by omega) hsk

theorem collapseRun_any_ws (run : List Char) (h : run.any isWSChar = true) :
    (collapseRun run).any isWSChar = true := by
  induction run with
  | nil => simp at h
  | cons x r ih =>
    rw [collapseRun, collapseGo]
    by_cases hx : isWSChar x = true
    · rw [if_pos hx]
      have hsp : isWSChar ' ' = true := by decide
      simp [hsp]
    · have hx' : isWSChar x = false := by
        cases hxx : isWSChar x with
        | false => rfl
        | true => exact absurd hxx hx
      rw [if_neg hx]
      rw [List.any_cons, hx', Bool.false_or] at h
      rw [List.any_cons, hx', Bool.false_or]
      exact ih h

theorem collapseRun_head (run : List Char) (hows : ∀ c ∈ run, isOWSChar c = true)
    (hany : run.any isWSChar = true) :
    ∃ c t, collapseRun run = c :: t ∧ isOWSChar c = true := by
  have h1 := collapseRun_any_ws run hany
  cases hcr : collapseRun run with
  | nil =>
    rw [hcr] at h1
    simp at h1
  | cons c t =>
    refine ⟨c, t, rfl, ?_⟩
    exact collapseRun_ows run hows c (by rw [hcr] ; exact List.mem_cons_self c t)

theorem scanDigits_nil : scanDigits [] = .fail [] := by
  rw [scanDigits.eq_def]

theorem scanDigits_cons (c : Char) (r : List Char) :
    scanDigits (c :: r) =
      if isDigitChar c then
        .ok (c :: r.takeWhile isDigitChar, r.dropWhile isDigitChar)
      else .fail (c :: r) := by
  rw [scanDigits.eq_def]

theorem scanFrac_nil : scanFrac [] = .ok ([], []) := by
  rw [scanFrac.eq_def]

theorem scanFrac_cons (c : Char) (r : List Char) :
    scanFrac (c :: r) =
      if c = '.' then
        match scanDigits r with
        | .ok (d, r2) => .ok ('.' :: d, r2)
        | .fail e => .fail e
      else .ok ([], c :: r) := by
  rw [scanFrac.eq_def]

theorem scanExp_nil : scanExp [] = .ok ([], []) := by
  rw [scanExp.eq_def]

theorem scanExp_cons (c : Char) (r : List Char) :
    scanExp (c :: r) =
      if c = 'e' || c = 'E' then
        match r with
        | [] => .fail []
        | c2 :: r2 =>
          if c2 = '-' || c2 = '+' then
            match scanDigits r2 with
            | .ok (d, r3) => .ok (c :: c2 :: d, r3)
            | .fail e => .fail e
          else
            match scanDigits (c2 :: r2) with
            | .ok (d, r3) => .ok (c :: d, r3)
            | .fail e => .fail e
      else .ok ([], c :: r) := by
  rw [scanExp.eq_def]

theorem scanNumber_nil : scanNumber [] = .fail [] := by
  rw [scanNumber.eq_def]

theorem scanNumber_cons (c : Char) (r : List Char) :
    scanNumber (c :: r) =
      if c = '-' then
        match scanNumRest r with
        | .ok (num, rest) => .ok ('-' :: num, rest)
        | .fail e => .fail e
      else scanNumRest (c :: r) := by
  rw [scanNumber.eq_def]

theorem parseLiteral_nil : parseLiteral [] = .fail [] := by
  rw [parseLiteral.eq_def]

theorem parseLiteral_cons (c : Char) (r : List Char) :
    parseLiteral (c :: r) =
      if c = '|' then
        match scanQuoted r with
        | .ok ((v, src), rest) => .ok ((.literal true v, '|' :: src), rest)
        | .fail e => .fail e
      else if isNameStartChar c then
        match parseName (c :: r) with
        | .ok (n, rest) => .ok ((.literal false n, n), rest)
        | .fail e => .fail e
      else if c = '-' || isDigitChar c then
        match scanNumber (c :: r) with
        | .ok (num, rest) => .ok ((.literal false num, num), rest)
        | .fail e => .fail e
      else .fail (c :: r) := by
  rw [parseLiteral.eq_def]

theorem parseOperand_nil : parseOperand [] = .fail [] := by
  rw [parseOperand.eq_def]

theorem parseOperand_cons (c : Char) (r : List Char) :
    parseOperand (c :: r) =
      if c = '$' then
        match parseName r with
        | .ok (n, rest) => .ok ((.var n, '$' :: n), rest)
        | .fail e => .fail e
      else parseLiteral (c :: r) := by
  rw [parseOperand.eq_def]

theorem parseOptions_zero (acc : List (List Char × MOperand)) (l : List Char) :
    parseOptions 0 acc l = .fail l := by
  rw [parseOptions.eq_def]

theorem parseOptions_succ (fuel : Nat) (acc : List (List Char × MOperand))
    (l : List Char) :
    parseOptions (fuel + 1) acc l =
      match (splitOWS l).2 with
      | [] => .ok ((acc, []), l)
      | c :: r =>
        if isNameStartChar c && (splitOWS l).1.any isWSChar then
          match parseOption (c :: r) with
          | .fail e => .fail e
          | .ok ((opt, onp), r2) =>
            if hasOptionName acc opt.1 then .fail (c :: r)
            else
              match parseOptions fuel (acc ++ [opt]) r2 with
              | .ok ((opts, np2), r3) =>
                .ok ((opts, collapseRun (splitOWS l).1 ++ onp ++ np2), r3)
              | .fail e => .fail e
        else .ok ((acc, []), l) := by
  rw [parseOptions.eq_def]

theorem parseAttributes_zero (acc : List (List Char × Option MOperand))
    (l : List Char) : parseAttributes 0 acc l = .fail l := by
  rw [parseAttributes.eq_def]

theorem parseAttributes_succ (fuel : Nat)
    (acc : List (List Char × Option MOperand)) (l : List Char) :
    parseAttributes (fuel + 1) acc l =
      match (splitOWS l).2 with
      | [] => .ok ((acc, []), l)
      | c :: r =>
        if c = '@' && (splitOWS l).1.any isWSChar then
          match parseAttribute r with
          | .fail e => .fail e
          | .ok ((att, anp), r2) =>
            match parseAttributes fuel (acc ++ [att]) r2 with
            | .ok ((atts, np2), r3) =>
              .ok ((atts, collapseRun (splitOWS l).1 ++ anp ++ np2), r3)
            | .fail e => .fail e
        else .ok ((acc, []), l) := by
  rw [parseAttributes.eq_def]

theorem fracExt_isNameChar (c : Char) (h : (c = '.' || isDigitChar c) = true) :
    isNameChar c = true := by
  simp only [Bool.or_eq_true, decide_eq_true_eq] at h
  rcases h with h1 | h2
  · subst h1
    decide
  · exact digit_isNameChar c h2

theorem expExt_isNameChar (c : Char)
    (h : (c = 'e' || c = 'E' || isDigitChar c) = true) :
    isNameChar c = true := by
  simp only [Bool.or_eq_true, decide_eq_true_eq] at h
  rcases h with (h1 | h1) | h2
  · subst h1
    decide
  · subst h1
    decide
  · exact digit_isNameChar c h2

theorem scanDigits_spec (l d rest : List Char)
    (h : scanDigits l = .ok (d, rest)) :
    l = d ++ rest ∧ (∀ x ∈ d, isDigitChar x = true) ∧
    (∃ c t, d = c :: t ∧ isDigitChar c = true) ∧
    (∀ k, HeadNot isDigitChar k → scanDigits (d ++ k) = .ok (d, k)) := by
  cases l with
  | nil =>
    rw [scanDigits_nil] at h
    exact absurd h (by simp)
  | cons c r =>
    rw [scanDigits_cons] at h
    by_cases hc : isDigitChar c = true
    · rw [if_pos hc] at h
      simp only [PResult.ok.injEq, Prod.mk.injEq] at h
      obtain ⟨hd, hrest⟩ := h
      subst hd
      subst hrest
      refine ⟨by rw [List.cons_append, List.takeWhile_append_dropWhile],
        ?_, ⟨c, _, rfl, hc⟩, ?_⟩
      · intro x hx
        rcases List.mem_cons.mp hx with h1 | h1
        · exact h1 ▸ hc
        · exact List.mem_takeWhile_imp h1
      · intro k hk
        rw [List.cons_append, scanDigits_cons, if_pos hc,
          takeWhile_append_all _ _ _ (fun x hx => List.mem_takeWhile_imp hx),
          takeWhile_eq_nil_of_head _ _ hk,
          dropWhile_append_all _ _ _ (fun x hx => List.mem_takeWhile_imp hx),
          dropWhile_eq_self_of_head _ _ hk, List.append_nil]
    · rw [if_neg hc] at h
      exact absurd h (by simp)

theorem scanFrac_spec (l f rest : List Char) (h : scanFrac l = .ok (f, rest)) :
    l = f ++ rest ∧ (∀ x ∈ f, isNumChar x = true) ∧
    (f = [] ∨ ∃ t, f = '.' :: t) ∧
    (∀ k, HeadNot (fun c => c = '.' || isDigitChar c) k →
      scanFrac (f ++ k) = .ok (f, k)) := by
  have hrep0 : ∀ k, HeadNot (fun c => c = '.' || isDigitChar c) k →
      scanFrac (([] : List Char) ++ k) = .ok ([], k) := by
    intro k hk
    cases k with
    | nil => rw [List.nil_append, scanFrac_nil]
    | cons c2 k2 =>
      rw [List.nil_append, scanFrac_cons]
      have h2 := hk c2 rfl
      simp only [Bool.or_eq_false_iff, decide_eq_false_iff_not] at h2
      rw [if_neg h2.1]
  cases l with
  | nil =>
    rw [scanFrac_nil] at h
    simp only [PResult.ok.injEq, Prod.mk.injEq] at h
    obtain ⟨hf, hrest⟩ := h
    subst hf
    subst hrest
    exact ⟨rfl, by simp, Or.inl rfl, hrep0⟩
  | cons c r =>
    rw [scanFrac_cons] at h
    by_cases hc : c = '.'
    · subst hc
      rw [if_pos rfl] at h
      cases hsd : scanDigits r with
      | fail e =>
        rw [hsd] at h
        exact absurd h (by simp)
      | ok x =>
        obtain ⟨d, r2⟩ := x
        rw [hsd] at h
        simp only [PResult.ok.injEq, Prod.mk.injEq] at h
        obtain ⟨hf, hrest⟩ := h
        subst hf
        subst hrest
        obtain ⟨hdec, hchars, ⟨c0, t0, hd0, hc0⟩, hrepD⟩ :=
          scanDigits_spec r d r2 hsd
        refine ⟨by rw [hdec, List.cons_append], ?_, Or.inr ⟨d, rfl⟩, ?_⟩
        · intro x hx
          rcases List.mem_cons.mp hx with h1 | h1
          · rw [h1]
            decide
          · rw [isNumChar, hchars x h1]
            rfl
        · intro k hk
          have hkd : HeadNot isDigitChar k := by
            refine headNot_mono _ _ ?_ k hk
            intro x hx
            simp [hx]
          rw [List.cons_append, scanFrac_cons, if_pos rfl, hrepD k hkd]
    · rw [if_neg hc] at h
      simp only [PResult.ok.injEq, Prod.mk.injEq] at h
      obtain ⟨hf, hrest⟩ := h
      subst hf
      subst hrest
      exact ⟨rfl, by simp, Or.inl rfl, hrep0⟩

theorem scanExp_spec (l x rest : List Char) (h : scanExp l = .ok (x, rest)) :
    l = x ++ rest ∧ (∀ y ∈ x, isNumChar y = true) ∧
    (x = [] ∨ ∃ c t, x = c :: t ∧ (c = 'e' ∨ c = 'E')) ∧
    (∀ k, HeadNot (fun c => c = 'e' || c = 'E' || isDigitChar c) k →
      scanExp (x ++ k) = .ok (x, k)) := by
  have hrep0 : ∀ k, HeadNot (fun c => c = 'e' || c = 'E' || isDigitChar c) k →
      scanExp (([] : List Char) ++ k) = .ok ([], k) := by
    intro k hk
    cases k with
    | nil => rw [List.nil_append, scanExp_nil]
    | cons c2 k2 =>
      rw [List.nil_append, scanExp_cons]
      have h2 := hk c2 rfl
      simp only [Bool.or_eq_false_iff, decide_eq_false_iff_not] at h2
      rw [if_neg (by simp [h2.1.1, h2.1.2])]
  cases l with
  | nil =>
    rw [scanExp_nil] at h
    simp only [PResult.ok.injEq, Prod.mk.injEq] at h
    obtain ⟨hx, hrest⟩ := h
    subst hx
    subst hrest
    exact ⟨rfl, by simp, Or.inl rfl, hrep0⟩
  | cons c r =>
    rw [scanExp_cons] at h
    by_cases hc : (c = 'e' || c = 'E') = true
    · rw [if_pos hc] at h
      have hce : c = 'e' ∨ c = 'E' := by
        simp only [Bool.or_eq_true, decide_eq_true_eq] at hc
        exact hc
      have hcnum : isNumChar c = true := by
        rcases hce with h1 | h1
        · subst h1
          decide
        · subst h1
          decide
      cases r with
      | nil => exact absurd h (by simp)
      | cons c2 r2 =>
        simp only [] at h
        by_cases hs : (c2 = '-' || c2 = '+') = true
        · rw [if_pos hs] at h
          cases hsd : scanDigits r2 with
          | fail e =>
            rw [hsd] at h
            exact absurd h (by simp)
          | ok y =>
            obtain ⟨d, r3⟩ := y
            rw [hsd] at h
            simp only [PResult.ok.injEq, Prod.mk.injEq] at h
            obtain ⟨hx, hrest⟩ := h
            subst hx
            subst hrest
            obtain ⟨hdec, hchars, _, hrepD⟩ := scanDigits_spec r2 d r3 hsd
            have hs2 : c2 = '-' ∨ c2 = '+' := by
              simp only [Bool.or_eq_true, decide_eq_true_eq] at hs
              exact hs
            refine ⟨by rw [hdec]
                       simp, ?_, Or.inr ⟨c, c2 :: d, rfl, hce⟩, ?_⟩
            · intro y hy
              rcases List.mem_cons.mp hy with h1 | h1
              · rw [h1]
                exact hcnum
              · rcases List.mem_cons.mp h1 with h2 | h2
                · rcases hs2 with h3 | h3
                  · rw [h2, h3]
                    decide
                  · rw [h2, h3]
                    decide
                · rw [isNumChar, hchars y h2]
                  rfl
            · intro k hk
              have hkd : HeadNot isDigitChar k := by
                refine headNot_mono _ _ ?_ k hk
                intro z hz
                simp [hz]
              rw [List.cons_append, List.cons_append, scanExp_cons, if_pos hc]
              simp only []
              rw [if_pos hs, hrepD k hkd]
        · rw [if_neg hs] at h
          cases hsd : scanDigits (c2 :: r2) with
          | fail e =>
            rw [hsd] at h
            exact absurd h (by simp)
          | ok y =>
            obtain ⟨d, r3⟩ := y
            rw [hsd] at h
            simp only [PResult.ok.injEq, Prod.mk.injEq] at h
            obtain ⟨hx, hrest⟩ := h
            subst hx
            subst hrest
            obtain ⟨hdec, hchars, ⟨c0, t0, hd0, hc0⟩, hrepD⟩ :=
              scanDigits_spec (c2 :: r2) d r3 hsd
            refine ⟨by rw [List.cons_append, ← hdec], ?_,
              Or.inr ⟨c, d, rfl, hce⟩, ?_⟩
            · intro y hy
              rcases List.mem_cons.mp hy with h1 | h1
              · rw [h1]
                exact hcnum
              · rw [isNumChar, hchars y h1]
                rfl
            · intro k hk
              have hkd : HeadNot isDigitChar k := by
                refine headNot_mono _ _ ?_ k hk
                intro z hz
                simp [hz]
              have hrd := hrepD k hkd
              rw [List.cons_append, scanExp_cons, if_pos hc, hd0,
                List.cons_append]
              simp only []
              have hns : ¬ (c0 = '-' || c0 = '+') = true := by
                simp [ne_of_pred isDigitChar c0 '-' hc0 (by decide),
                  ne_of_pred isDigitChar c0 '+' hc0 (by decide)]
              rw [hd0, List.cons_append] at hrd
              rw [if_neg hns, hrd]
    · rw [if_neg hc] at h
      simp only [PResult.ok.injEq, Prod.mk.injEq] at h
      obtain ⟨hx, hrest⟩ := h
      subst hx
      subst hrest
      exact ⟨rfl, by simp, Or.inl rfl, hrep0⟩

theorem scanNumRest_spec (l num rest : List Char)
    (h : scanNumRest l = .ok (num, rest)) :
    l = num ++ rest ∧ (∀ y ∈ num, isNumChar y = true) ∧
    (∃ c t, num = c :: t ∧ isDigitChar c = true) ∧
    (∀ k, HeadNot isNameChar k → scanNumRest (num ++ k) = .ok (num, k)) := by
  rw [scanNumRest] at h
  cases hsd : scanDigits l with
  | fail e =>
    rw [hsd] at h
    exact absurd h (by simp)
  | ok y =>
    obtain ⟨d, r1⟩ := y
    rw [hsd] at h
    simp only [] at h
    cases hsf : scanFrac r1 with
    | fail e =>
      rw [hsf] at h
      exact absurd h (by simp)
    | ok y2 =>
      obtain ⟨f, r2⟩ := y2
      rw [hsf] at h
      simp only [] at h
      cases hse : scanExp r2 with
      | fail e =>
        rw [hse] at h
        exact absurd h (by simp)
      | ok y3 =>
        obtain ⟨x, r3⟩ := y3
        rw [hse] at h
        simp only [PResult.ok.injEq, Prod.mk.injEq] at h
        obtain ⟨hnum, hrest⟩ := h
        subst hnum
        subst hrest
        obtain ⟨hdecD, hcharsD, ⟨c0, t0, hd0, hc0⟩, hrepD⟩ :=
          scanDigits_spec l d r1 hsd
        obtain ⟨hdecF, hcharsF, hheadF, hrepF⟩ := scanFrac_spec r1 f r2 hsf
        obtain ⟨hdecX, hcharsX, hheadX, hrepX⟩ := scanExp_spec r2 x r3 hse
        refine ⟨?_, ?_, ⟨c0, t0 ++ f ++ x, by rw [hd0] ; simp, hc0⟩, ?_⟩
        · rw [hdecD, hdecF, hdecX]
          simp [List.append_assoc]
        · intro y hy
          simp only [List.mem_append] at hy
          rcases hy with (h1 | h1) | h1
          · rw [isNumChar, hcharsD y h1]
            rfl
          · exact hcharsF y h1
          · exact hcharsX y h1
        · intro k hk
          rw [scanNumRest]
          have e1 : (d ++ f ++ x) ++ k = d ++ (f ++ (x ++ k)) := by
            simp [List.append_assoc]
          rw [e1]
          have hkx : HeadNot (fun c => c = 'e' || c = 'E' || isDigitChar c) k := by
            refine headNot_mono _ _ ?_ k hk
            exact expExt_isNameChar
          have hkxk : HeadNot (fun c => c = '.' || isDigitChar c) (x ++ k) := by
            rcases hheadX with hx0 | ⟨ce, te, hxe, hce⟩
            · subst hx0
              rw [List.nil_append]
              refine headNot_mono _ _ ?_ k hk
              exact fracExt_isNameChar
            · rw [hxe, List.cons_append]
              refine headNot_cons _ _ _ ?_
              rcases hce with h1 | h1
              · subst h1
                decide
              · subst h1
                decide
          have hkfk : HeadNot isDigitChar (f ++ (x ++ k)) := by
            rcases hheadF with hf0 | ⟨tf, hff⟩
            · subst hf0
              rw [List.nil_append]
              rcases hheadX with hx0 | ⟨ce, te, hxe, hce⟩
              · subst hx0
                rw [List.nil_append]
                refine headNot_mono _ _ ?_ k hk
                exact digit_isNameChar
              · rw [hxe, List.cons_append]
                refine headNot_cons _ _ _ ?_
                rcases hce with h1 | h1
                · subst h1
                  decide
                · subst h1
                  decide
            · rw [hff, List.cons_append]
              exact headNot_cons _ _ _ (by decide)
          rw [hrepD _ hkfk]
          simp only []
          rw [hrepF _ hkxk]
          simp only []
          rw [hrepX _ hkx]

theorem scanNumber_spec (l num rest : List Char)
    (h : scanNumber l = .ok (num, rest)) :
    l = num ++ rest ∧ (∀ y ∈ num, isNumChar y = true) ∧
    (∃ c t, num = c :: t ∧ (c = '-' || isDigitChar c) = true) ∧
    (∀ k, HeadNot isNameChar k → scanNumber (num ++ k) = .ok (num, k)) := by
  cases l with
  | nil =>
    rw [scanNumber_nil] at h
    exact absurd h (by simp)
  | cons c r =>
    rw [scanNumber_cons] at h
    by_cases hc : c = '-'
    · subst hc
      rw [if_pos rfl] at h
      cases hnr : scanNumRest r with
      | fail e =>
        rw [hnr] at h
        exact absurd h (by simp)
      | ok y =>
        obtain ⟨num0, rest0⟩ := y
        rw [hnr] at h
        simp only [PResult.ok.injEq, Prod.mk.injEq] at h
        obtain ⟨hnum, hrest⟩ := h
        subst hnum
        subst hrest
        obtain ⟨hdec, hchars, _, hrep⟩ := scanNumRest_spec r num0 rest0 hnr
        refine ⟨by rw [hdec, List.cons_append], ?_,
          ⟨'-', num0, rfl, by decide⟩, ?_⟩
        · intro y hy
          rcases List.mem_cons.mp hy with h1 | h1
          · rw [h1]
            decide
          · exact hchars y h1
        · intro k hk
          rw [List.cons_append, scanNumber_cons, if_pos rfl, hrep k hk]
    · rw [if_neg hc] at h
      obtain ⟨hdec, hchars, ⟨c0, t0, hn0, hd0⟩, hrep⟩ :=
        scanNumRest_spec (c :: r) num rest h
      refine ⟨hdec, hchars, ⟨c0, t0, hn0, by simp [hd0]⟩, ?_⟩
      intro k hk
      rw [hn0, List.cons_append, scanNumber_cons,
        if_neg (ne_of_pred isDigitChar c0 '-' hd0 (by decide)),
        ← List.cons_append, ← hn0]
      exact hrep k hk

theorem parseLiteral_spec (l : List Char) (v : MOperand) (np rest : List Char)
    (h : parseLiteral l = .ok ((v, np), rest)) :
    l = np ++ rest ∧ (∃ c t, np = c :: t ∧ isLitStart c = true) ∧
    (∀ k, HeadNot isNameChar k → parseLiteral (np ++ k) = .ok ((v, np), k)) ∧
    SpanConsume np := by
  cases l with
  | nil =>
    rw [parseLiteral_nil] at h
    exact absurd h (by simp)
  | cons c r =>
    rw [parseLiteral_cons] at h
    by_cases h1 : c = '|'
    · subst h1
      rw [if_pos rfl] at h
      cases hsq : scanQuoted r with
      | fail e =>
        rw [hsq] at h
        exact absurd h (by simp)
      | ok x =>
        obtain ⟨⟨v0, src⟩, rest0⟩ := x
        rw [hsq] at h
        simp only [PResult.ok.injEq, Prod.mk.injEq] at h
        obtain ⟨⟨hv, hnp⟩, hrest⟩ := h
        subst hv
        subst hnp
        subst hrest
        obtain ⟨hdec, hne⟩ := scanQuoted_decomp r v0 src rest0 hsq
        refine ⟨by rw [hdec, List.cons_append], ⟨'|', src, rfl, by decide⟩,
          ?_, spanConsume_quoted r v0 src rest0 hsq⟩
        intro k hk
        rw [List.cons_append, parseLiteral_cons, if_pos rfl,
          scanQuoted_reparse r v0 src rest0 hsq k]
    · rw [if_neg h1] at h
      by_cases h2 : isNameStartChar c = true
      · rw [if_pos h2] at h
        cases hpn : parseName (c :: r) with
        | fail e =>
          rw [hpn] at h
          exact absurd h (by simp)
        | ok x =>
          obtain ⟨n, rest0⟩ := x
          rw [hpn] at h
          simp only [PResult.ok.injEq, Prod.mk.injEq] at h
          obtain ⟨⟨hv, hnp⟩, hrest⟩ := h
          subst hv
          subst hnp
          subst hrest
          obtain ⟨hdec, ⟨c0, t0, hn, hstart, htchars⟩, hrest0⟩ :=
            parseName_spec (c :: r) n rest0 hpn
          have hall := parseName_all_nameChar (c :: r) n rest0 hpn
          refine ⟨hdec, ⟨c0, t0, hn, by rw [isLitStart, hstart] ; simp⟩, ?_, ?_⟩
          · intro k hk
            have hre := parseName_reparse (c :: r) n rest0 hpn k hk
            rw [hn, List.cons_append, parseLiteral_cons,
              if_neg (nameStart_ne_bar c0 hstart), if_pos hstart,
              ← List.cons_append, ← hn, hre]
          · refine spanConsume_chars n ?_
            intro d hd
            exact ⟨nameChar_ne_rbrace d (hall d hd), nameChar_ne_bar d (hall d hd)⟩
      · rw [if_neg h2] at h
        by_cases h3 : (c = '-' || isDigitChar c) = true
        · rw [if_pos h3] at h
          cases hsn : scanNumber (c :: r) with
          | fail e =>
            rw [hsn] at h
            exact absurd h (by simp)
          | ok x =>
            obtain ⟨num, rest0⟩ := x
            rw [hsn] at h
            simp only [PResult.ok.injEq, Prod.mk.injEq] at h
            obtain ⟨⟨hv, hnp⟩, hrest⟩ := h
            subst hv
            subst hnp
            subst hrest
            obtain ⟨hdec, hchars, ⟨c0, t0, hn0, hc0⟩, hrep⟩ :=
              scanNumber_spec (c :: r) num rest0 hsn
            have hc0lit : isLitStart c0 = true := by
              rw [isLitStart]
              simp only [Bool.or_eq_true, decide_eq_true_eq] at h3 ⊢
              rcases h3x : hc0 with _
              simp only [Bool.or_eq_true, decide_eq_true_eq] at hc0
              rcases hc0 with hm | hdg
              · exact Or.inl (Or.inr hm)
              · exact Or.inr hdg
            refine ⟨hdec, ⟨c0, t0, hn0, hc0lit⟩, ?_, ?_⟩
            · intro k hk
              have hre := hrep k hk
              have hbar : ¬ c0 = '|' := by
                simp only [Bool.or_eq_true, decide_eq_true_eq] at hc0
                rcases hc0 with hm | hdg
                · subst hm
                  decide
                · exact ne_of_pred isDigitChar c0 '|' hdg (by decide)
              have hnsf : ¬ isNameStartChar c0 = true := by
                simp only [Bool.or_eq_true, decide_eq_true_eq] at hc0
                rcases hc0 with hm | hdg
                · subst hm
                  decide
                · rw [digit_not_nameStart c0 hdg]
                  exact Bool.false_ne_true
              rw [hn0, List.cons_append] at hre ⊢
              rw [parseLiteral_cons, if_neg hbar, if_neg hnsf, if_pos hc0, hre]
            · refine spanConsume_chars num ?_
              intro d hd
              exact ⟨ne_of_pred isNumChar d '}' (hchars d hd) (by decide),
                ne_of_pred isNumChar d '|' (hchars d hd) (by decide)⟩
        · rw [if_neg h3] at h
          exact absurd h (by simp)

theorem parseOperand_spec (l : List Char) (op : MOperand) (np rest : List Char)
    (h : parseOperand l = .ok ((op, np), rest)) :
    l = np ++ rest ∧ (∃ c t, np = c :: t ∧ isOpStart c = true) ∧
    (∀ k, HeadNot isNameChar k → parseOperand (np ++ k) = .ok ((op, np), k)) ∧
    SpanConsume np := by
  cases l with
  | nil =>
    rw [parseOperand_nil] at h
    exact absurd h (by simp)
  | cons c r =>
    rw [parseOperand_cons] at h
    by_cases h1 : c = '$'
    · subst h1
      rw [if_pos rfl] at h
      cases hpn : parseName r with
      | fail e =>
        rw [hpn] at h
        exact absurd h (by simp)
      | ok x =>
        obtain ⟨n, rest0⟩ := x
        rw [hpn] at h
        simp only [PResult.ok.injEq, Prod.mk.injEq] at h
        obtain ⟨⟨hop, hnp⟩, hrest⟩ := h
        subst hop
        subst hnp
        subst hrest
        obtain ⟨hdec, _, _⟩ := parseName_spec r n rest0 hpn
        have hall := parseName_all_nameChar r n rest0 hpn
        refine ⟨by rw [hdec, List.cons_append], ⟨'$', n, rfl, by decide⟩, ?_, ?_⟩
        · intro k hk
          rw [List.cons_append, parseOperand_cons, if_pos rfl,
            parseName_reparse r n rest0 hpn k hk]
        · refine spanConsume_chars ('$' :: n) ?_
          intro d hd
          rcases List.mem_cons.mp hd with hd1 | hd1
          · subst hd1
            exact ⟨by decide, by decide⟩
          · exact ⟨nameChar_ne_rbrace d (hall d hd1), nameChar_ne_bar d (hall d hd1)⟩
    · rw [if_neg h1] at h
      obtain ⟨hdec, ⟨c0, t0, hn0, hc0⟩, hrep, hspan⟩ :=
        parseLiteral_spec (c :: r) op np rest h
      refine ⟨hdec, ⟨c0, t0, hn0, opStart_of_litStart c0 hc0⟩, ?_, hspan⟩
      intro k hk
      rw [hn0, List.cons_append, parseOperand_cons,
        if_neg (ne_of_pred isLitStart c0 '$' hc0 (by decide)),
        ← List.cons_append, ← hn0]
      exact hrep k hk

theorem parseIdentifier_spec (l idf rest : List Char)
    (h : parseIdentifier l = .ok (idf, rest)) :
    l = idf ++ rest ∧ (∃ c t, idf = c :: t ∧ isNameStartChar c = true) ∧
    (∀ x ∈ idf, isIdentChar x = true) ∧
    (∀ k, HeadNot isIdentChar k → parseIdentifier (idf ++ k) = .ok (idf, k)) := by
  rw [parseIdentifier] at h
  cases hpn : parseName l with
  | fail e =>
    rw [hpn] at h
    exact absurd h (by simp)
  | ok x =>
    obtain ⟨n1, r1⟩ := x
    rw [hpn] at h
    simp only [] at h
    obtain ⟨hdec1, ⟨c0, t0, hn1, hstart, _⟩, hrest1⟩ := parseName_spec l n1 r1 hpn
    have hall1 := parseName_all_nameChar l n1 r1 hpn
    cases r1 with
    | nil =>
      simp only [PResult.ok.injEq, Prod.mk.injEq] at h
      obtain ⟨hidf, hrest⟩ := h
      subst hidf
      subst hrest
      refine ⟨by rw [hdec1], ⟨c0, t0, hn1, hstart⟩,
        fun x hx => identChar_of_nameChar x (hall1 x hx), ?_⟩
      intro k hk
      rw [parseIdentifier, parseName_reparse l n1 [] hpn k
        (headNot_mono _ _ identChar_of_nameChar k hk)]
      cases k with
      | nil => rfl
      | cons ck k2 =>
        simp only []
        rw [if_neg (identChar_false ck (hk ck rfl)).2]
    | cons c r2 =>
      simp only [] at h
      by_cases hc : c = ':'
      · subst hc
        rw [if_pos rfl] at h
        cases hpn2 : parseName r2 with
        | fail e =>
          rw [hpn2] at h
          exact absurd h (by simp)
        | ok y =>
          obtain ⟨n2, r3⟩ := y
          rw [hpn2] at h
          simp only [PResult.ok.injEq, Prod.mk.injEq] at h
          obtain ⟨hidf, hrest⟩ := h
          subst hidf
          subst hrest
          obtain ⟨hdec2, ⟨c2, t2, hn2, hstart2, _⟩, hrest2⟩ :=
            parseName_spec r2 n2 r3 hpn2
          have hall2 := parseName_all_nameChar r2 n2 r3 hpn2
          refine ⟨?_, ⟨c0, t0 ++ ':' :: n2, by rw [hn1] ; simp, hstart⟩, ?_, ?_⟩
          · rw [hdec1, hdec2]
            simp
          · intro x hx
            simp only [List.mem_append, List.mem_cons] at hx
            rcases hx with h1 | h1 | h1
            · exact identChar_of_nameChar x (hall1 x h1)
            · subst h1
              decide
            · exact identChar_of_nameChar x (hall2 x h1)
          · intro k hk
            have e1 : (n1 ++ ':' :: n2) ++ k = n1 ++ (':' :: (n2 ++ k)) := by
              simp
            rw [e1, parseIdentifier,
              parseName_reparse l n1 (':' :: r2) hpn (':' :: (n2 ++ k))
                (headNot_cons _ _ _ (by decide))]
            simp only []
            rw [if_pos trivial,
              parseName_reparse r2 n2 r3 hpn2 k
                (headNot_mono _ _ identChar_of_nameChar k hk)]
      · rw [if_neg hc] at h
        simp only [PResult.ok.injEq, Prod.mk.injEq] at h
        obtain ⟨hidf, hrest⟩ := h
        subst hidf
        subst hrest
        refine ⟨by rw [hdec1], ⟨c0, t0, hn1, hstart⟩,
          fun x hx => identChar_of_nameChar x (hall1 x hx), ?_⟩
        intro k hk
        rw [parseIdentifier, parseName_reparse l n1 (c :: r2) hpn k
          (headNot_mono _ _ identChar_of_nameChar k hk)]
        cases k with
        | nil => rfl
        | cons ck k2 =>
          simp only []
          rw [if_neg (identChar_false ck (hk ck rfl)).2]

theorem parseOption_spec (l : List Char) (opt : List Char × MOperand)
    (np rest : List Char) (h : parseOption l = .ok ((opt, np), rest)) :
    l = np ++ rest ∧ (∃ c t, np = c :: t ∧ isNameStartChar c = true) ∧
    (∀ k, HeadNot isNameChar k → parseOption (np ++ k) = .ok ((opt, np), k)) ∧
    SpanConsume np := by
  rw [parseOption] at h
  cases hpi : parseIdentifier l with
  | fail e =>
    rw [hpi] at h
    exact absurd h (by simp)
  | ok x =>
    obtain ⟨idf, r1⟩ := x
    rw [hpi] at h
    simp only [] at h
    cases r1 with
    | nil => exact absurd h (by simp)
    | cons c r2 =>
      simp only [] at h
      by_cases hc : c = '='
      · subst hc
        rw [if_pos rfl] at h
        cases hpo : parseOperand r2 with
        | fail e =>
          rw [hpo] at h
          exact absurd h (by simp)
        | ok y =>
          obtain ⟨⟨v, vnp⟩, r3⟩ := y
          rw [hpo] at h
          simp only [PResult.ok.injEq, Prod.mk.injEq] at h
          obtain ⟨⟨hopt, hnp⟩, hrest⟩ := h
          subst hopt
          subst hnp
          subst hrest
          obtain ⟨hdecI, ⟨c0, t0, hidf, hstart⟩, hcharsI, hrepI⟩ :=
            parseIdentifier_spec l idf ('=' :: r2) hpi
          obtain ⟨hdecO, hheadO, hrepO, hspanO⟩ := parseOperand_spec r2 v vnp r3 hpo
          refine ⟨?_, ⟨c0, t0 ++ '=' :: vnp, by rw [hidf] ; simp, hstart⟩, ?_, ?_⟩
          · rw [hdecI, hdecO]
            simp
          · intro k hk
            have e1 : (idf ++ '=' :: vnp) ++ k = idf ++ ('=' :: (vnp ++ k)) := by
              simp
            rw [e1, parseOption,
              hrepI ('=' :: (vnp ++ k)) (headNot_cons _ _ _ (by decide))]
            simp only []
            rw [if_pos trivial, hrepO k hk]
          · have e2 : idf ++ '=' :: vnp = idf ++ ['='] ++ vnp := by
              simp
            rw [e2]
            refine spanConsume_append _ _ ?_ hspanO
            refine spanConsume_append _ _ ?_ (spanConsume_one '=' (by decide) (by decide))
            refine spanConsume_chars idf ?_
            intro d hd
            exact ⟨ne_of_pred isIdentChar d '}' (hcharsI d hd) (by decide),
              ne_of_pred isIdentChar d '|' (hcharsI d hd) (by decide)⟩
      · rw [if_neg hc] at h
        exact absurd h (by simp)

theorem parseAttribute_spec (l : List Char) (att : List Char × Option MOperand)
    (np rest : List Char) (h : parseAttribute l = .ok ((att, np), rest)) :
    ∃ cons, np = '@' :: cons ∧ l = cons ++ rest ∧ SpanConsume cons ∧
      (∃ c t, cons = c :: t ∧ isNameStartChar c = true) ∧
      (∀ k, HeadNot isIdentExt k →
        parseAttribute (cons ++ k) = .ok ((att, np), k)) := by
  rw [parseAttribute] at h
  cases hpi : parseIdentifier l with
  | fail e =>
    rw [hpi] at h
    exact absurd h (by simp)
  | ok x =>
    obtain ⟨idf, r1⟩ := x
    rw [hpi] at h
    simp only [] at h
    obtain ⟨hdecI, ⟨c0, t0, hidf, hstart⟩, hcharsI, hrepI⟩ :=
      parseIdentifier_spec l idf r1 hpi
    have hspanI : SpanConsume idf := by
      refine spanConsume_chars idf ?_
      intro d hd
      exact ⟨ne_of_pred isIdentChar d '}' (hcharsI d hd) (by decide),
        ne_of_pred isIdentChar d '|' (hcharsI d hd) (by decide)⟩
    cases r1 with
    | nil =>
      simp only [PResult.ok.injEq, Prod.mk.injEq] at h
      obtain ⟨⟨hatt, hnp⟩, hrest⟩ := h
      subst hatt
      subst hnp
      subst hrest
      refine ⟨idf, rfl, by rw [hdecI], hspanI, ⟨c0, t0, hidf, hstart⟩, ?_⟩
      intro k hk
      rw [parseAttribute,
        hrepI k (headNot_mono _ _ identExt_of_identChar k hk)]
      cases k with
      | nil => rfl
      | cons ck k2 =>
        simp only []
        rw [if_neg (identExt_false ck (hk ck rfl)).2.2]
    | cons c r2 =>
      simp only [] at h
      by_cases hc : c = '='
      · subst hc
        rw [if_pos rfl] at h
        cases hpl : parseLiteral r2 with
        | fail e =>
          rw [hpl] at h
          exact absurd h (by simp)
        | ok y =>
          obtain ⟨⟨v, vnp⟩, r3⟩ := y
          rw [hpl] at h
          simp only [PResult.ok.injEq, Prod.mk.injEq] at h
          obtain ⟨⟨hatt, hnp⟩, hrest⟩ := h
          subst hatt
          subst hnp
          subst hrest
          obtain ⟨hdecL, hheadL, hrepL, hspanL⟩ := parseLiteral_spec r2 v vnp r3 hpl
          refine ⟨idf ++ '=' :: vnp, by simp, ?_, ?_, ⟨c0, t0 ++ '=' :: vnp,
            by rw [hidf] ; simp, hstart⟩, ?_⟩
          · rw [hdecI, hdecL]
            simp
          · have e2 : idf ++ '=' :: vnp = idf ++ ['='] ++ vnp := by
              simp
            rw [e2]
            refine spanConsume_append _ _ ?_ hspanL
            exact spanConsume_append _ _ hspanI
              (spanConsume_one '=' (by decide) (by decide))
          · intro k hk
            have e1 : (idf ++ '=' :: vnp) ++ k = idf ++ ('=' :: (vnp ++ k)) := by
              simp
            rw [e1, parseAttribute,
              hrepI ('=' :: (vnp ++ k)) (headNot_cons _ _ _ (by decide))]
            simp only []
            rw [if_pos trivial,
              hrepL k (headNot_mono _ _ identExt_of_nameChar k hk)]
      · rw [if_neg hc] at h
        simp only [PResult.ok.injEq, Prod.mk.injEq] at h
        obtain ⟨⟨hatt, hnp⟩, hrest⟩ := h
        subst hatt
        subst hnp
        subst hrest
        refine ⟨idf, rfl, by rw [hdecI], hspanI, ⟨c0, t0, hidf, hstart⟩, ?_⟩
        intro k hk
        rw [parseAttribute,
          hrepI k (headNot_mono _ _ identExt_of_identChar k hk)]
        cases k with
        | nil => rfl
        | cons ck k2 =>
          simp only []
          rw [if_neg (identExt_false ck (hk ck rfl)).2.2]

theorem headNot_owsK (p : Char → Bool) (np2 k : List Char)
    (hh : np2 = [] ∨ ∃ c t, np2 = c :: t ∧ isOWSChar c = true)
    (hows : ∀ c, isOWSChar c = true → p c = false)
    (hkp : HeadNot p k) : HeadNot p (np2 ++ k) := by
  rcases hh with h0 | ⟨c, t, hct, hc⟩
  · subst h0
    exact hkp
  · rw [hct, List.cons_append]
    exact headNot_cons _ _ _ (hows c hc)

theorem optStruct_head (np2 : List Char)
    (h : np2 = [] ∨ ∃ w c0 t, np2 = w ++ c0 :: t ∧
      (∀ c ∈ w, isOWSChar c = true) ∧ w ≠ [] ∧ isNameStartChar c0 = true) :
    np2 = [] ∨ ∃ c t, np2 = c :: t ∧ isOWSChar c = true := by
  rcases h with h0 | ⟨w, c0, t, heq, hows, hne, _⟩
  · exact Or.inl h0
  · cases w with
    | nil => exact absurd rfl hne
    | cons x w2 =>
      exact Or.inr ⟨x, w2 ++ c0 :: t, by rw [heq] ; simp,
        hows x (List.mem_cons_self x w2)⟩

theorem attStruct_head (np2 : List Char)
    (h : np2 = [] ∨ ∃ w t, np2 = w ++ '@' :: t ∧
      (∀ c ∈ w, isOWSChar c = true) ∧ w ≠ []) :
    np2 = [] ∨ ∃ c t, np2 = c :: t ∧ isOWSChar c = true := by
  rcases h with h0 | ⟨w, t, heq, hows, hne⟩
  · exact Or.inl h0
  · cases w with
    | nil => exact absurd rfl hne
    | cons x w2 =>
      exact Or.inr ⟨x, w2 ++ '@' :: t, by rw [heq] ; simp,
        hows x (List.mem_cons_self x w2)⟩

theorem attStruct_afterOWS (p : Char → Bool) (np2 k : List Char)
    (h : np2 = [] ∨ ∃ w t, np2 = w ++ '@' :: t ∧
      (∀ c ∈ w, isOWSChar c = true) ∧ w ≠ [])
    (hp : p '@' = false) (hk : AfterOWSHeadNot p k) :
    AfterOWSHeadNot p (np2 ++ k) := by
  rcases h with h0 | ⟨w, t, heq, hows, _⟩
  · subst h0
    exact hk
  · rw [heq]
    have e1 : (w ++ '@' :: t) ++ k = w ++ ('@' :: (t ++ k)) := by
      simp
    rw [e1]
    show HeadNot p (splitOWS (w ++ ('@' :: (t ++ k)))).2
    rw [splitOWS_reparse w ('@' :: (t ++ k)) hows (headNot_cons _ _ _ (by decide))]
    exact headNot_cons _ _ _ hp

theorem parseOptions_stop_rep (acc : List (List Char × MOperand)) :
    ∀ g k, 0 < g → AfterOWSHeadNot isNameStartChar k →
      parseOptions g acc k = .ok ((acc, []), k) := by
  intro g k hg hak
  obtain ⟨g2, rfl⟩ : ∃ g2, g = g2 + 1 := ⟨g - 1, by omega⟩
  rw [parseOptions_succ]
  cases hsk : (splitOWS k).2 with
  | nil => rfl
  | cons ck kr =>
    simp only []
    have hckns : isNameStartChar ck = false := hak ck (by rw [hsk] ; rfl)
    rw [hckns]
    simp

theorem parseAttributes_stop_rep (acc : List (List Char × Option MOperand)) :
    ∀ g k, 0 < g → AfterOWSHeadNot (fun c => c = '@') k →
      parseAttributes g acc k = .ok ((acc, []), k) := by
  intro g k hg hak
  obtain ⟨g2, rfl⟩ : ∃ g2, g = g2 + 1 := ⟨g - 1, by omega⟩
  rw [parseAttributes_succ]
  cases hsk : (splitOWS k).2 with
  | nil => rfl
  | cons ck kr =>
    simp only []
    have hck := hak ck (by rw [hsk] ; rfl)
    simp only [] at hck
    rw [hck]
    simp

theorem parseOptions_spec (fuel : Nat) :
    ∀ acc l opts np rest, parseOptions fuel acc l = .ok ((opts, np), rest) →
      (∃ cons, l = cons ++ rest ∧ np.length ≤ cons.length ∧ SpanConsume cons) ∧
      (np = [] ∨ ∃ w c0 t, np = w ++ c0 :: t ∧ (∀ c ∈ w, isOWSChar c = true) ∧
        w ≠ [] ∧ isNameStartChar c0 = true) ∧
      (∀ g k, np.length + k.length < g → HeadNot isIdentExt k →
        AfterOWSHeadNot isNameStartChar k →
        parseOptions g acc (np ++ k) = .ok ((opts, np), k)) := by
  induction fuel with
  | zero =>
    intro acc l opts np rest h
    rw [parseOptions_zero] at h
    exact absurd h (by simp)
  | succ fuel ih =>
    intro acc l opts np rest h
    rw [parseOptions_succ] at h
    cases hsp : (splitOWS l).2 with
    | nil =>
      rw [hsp] at h
      simp only [PResult.ok.injEq, Prod.mk.injEq] at h
      obtain ⟨⟨hopts, hnp⟩, hrest⟩ := h
      subst hopts
      subst hnp
      subst hrest
      refine ⟨⟨[], by simp, by simp, spanConsume_nil⟩, Or.inl rfl, ?_⟩
      intro g k hg hk hak
      rw [List.nil_append]
      exact parseOptions_stop_rep acc g k (by omega) hak
    | cons c r =>
      rw [hsp] at h
      simp only [] at h
      by_cases hcond : (isNameStartChar c && (splitOWS l).1.any isWSChar) = true
      · rw [if_pos hcond] at h
        cases hpo : parseOption (c :: r) with
        | fail e =>
          rw [hpo] at h
          exact absurd h (by simp)
        | ok x =>
          obtain ⟨⟨opt, onp⟩, r2⟩ := x
          rw [hpo] at h
          simp only [] at h
          by_cases hdup : hasOptionName acc opt.1 = true
          · rw [if_pos hdup] at h
            exact absurd h (by simp)
          · rw [if_neg hdup] at h
            cases hrec : parseOptions fuel (acc ++ [opt]) r2 with
            | fail e =>
              rw [hrec] at h
              exact absurd h (by simp)
            | ok y =>
              obtain ⟨⟨opts2, np2⟩, r3⟩ := y
              rw [hrec] at h
              simp only [PResult.ok.injEq, Prod.mk.injEq] at h
              obtain ⟨⟨hopts, hnp⟩, hrest⟩ := h
              subst hopts
              subst hnp
              subst hrest
              have hcond' := hcond
              simp only [Bool.and_eq_true] at hcond'
              obtain ⟨hcns, hany⟩ := hcond'
              obtain ⟨⟨cons2, hdec2, hlen2, hspan2⟩, hstruct2, hrep2⟩ :=
                ih (acc ++ [opt]) r2 opts2 np2 r3 hrec
              obtain ⟨hdecO, ⟨c0, t0, honp, hstart0⟩, hrepO, hspanO⟩ :=
                parseOption_spec (c :: r) opt onp r2 hpo
              have hw := splitOWS_run_ows l
              have hldec := splitOWS_decomp l
              rw [hsp] at hldec
              rw [hdecO] at hldec
              rw [hdec2] at hldec
              have hcl : (collapseRun (splitOWS l).1).length ≤ (splitOWS l).1.length :=
                collapseGo_length _ false
              have honplen : 1 ≤ onp.length := by
                rw [honp]
                simp
              obtain ⟨cw, tw, hcw, hcwows⟩ := collapseRun_head _ hw hany
              have hcwlen : 1 ≤ (collapseRun (splitOWS l).1).length := by
                rw [hcw]
                simp
              refine ⟨⟨(splitOWS l).1 ++ (onp ++ cons2), ?_, ?_, ?_⟩, ?_, ?_⟩
              · conv_lhs => rw [hldec]
                simp [List.append_assoc]
              · simp only [List.length_append]
                omega
              · exact spanConsume_append _ _ (spanConsume_ows _ hw)
                  (spanConsume_append _ _ hspanO hspan2)
              · refine Or.inr ⟨collapseRun (splitOWS l).1, c0, t0 ++ np2, ?_,
                  collapseRun_ows _ hw, ?_, hstart0⟩
                · rw [honp]
                  simp
                · rw [hcw]
                  simp
              · intro g k hg hk hak
                obtain ⟨g2, rfl⟩ : ∃ g2, g = g2 + 1 := ⟨g - 1, by omega⟩
                have e1 : (collapseRun (splitOWS l).1 ++ onp ++ np2) ++ k =
                    collapseRun (splitOWS l).1 ++ (onp ++ (np2 ++ k)) := by
                  simp
                rw [e1, parseOptions_succ]
                have hhead : HeadNot isOWSChar (onp ++ (np2 ++ k)) := by
                  rw [honp, List.cons_append]
                  exact headNot_cons _ _ _ (nameStart_not_ows c0 hstart0)
                rw [splitOWS_reparse _ _ (collapseRun_ows _ hw) hhead]
                simp only []
                have hrO := hrepO (np2 ++ k)
                  (headNot_owsK isNameChar np2 k (optStruct_head np2 hstruct2)
                    ows_not_nameChar
                    (headNot_mono _ _ identExt_of_nameChar k hk))
                rw [honp, List.cons_append] at hrO
                rw [honp, List.cons_append]
                simp only []
                have hanyC : (collapseRun (splitOWS l).1).any isWSChar = true :=
                  collapseRun_any_ws _ hany
                rw [if_pos (by rw [hstart0, hanyC] ; rfl)]
                rw [hrO]
                simp only []
                rw [if_neg hdup]
                have hr2 := hrep2 g2 k (by
                  simp only [List.length_append] at hg
                  omega) hk hak
                rw [hr2]
                simp only []
                rw [collapseRun_idem]
      · rw [if_neg hcond] at h
        simp only [PResult.ok.injEq, Prod.mk.injEq] at h
        obtain ⟨⟨hopts, hnp⟩, hrest⟩ := h
        subst hopts
        subst hnp
        subst hrest
        refine ⟨⟨[], by simp, by simp, spanConsume_nil⟩, Or.inl rfl, ?_⟩
        intro g k hg hk hak
        rw [List.nil_append]
        exact parseOptions_stop_rep acc g k (by omega) hak

theorem parseAttributes_spec (fuel : Nat) :
    ∀ acc l atts np rest, parseAttributes fuel acc l = .ok ((atts, np), rest) →
      (∃ cons, l = cons ++ rest ∧ np.length ≤ cons.length ∧ SpanConsume cons) ∧
      (np = [] ∨ ∃ w t, np = w ++ '@' :: t ∧ (∀ c ∈ w, isOWSChar c = true) ∧
        w ≠ []) ∧
      (∀ g k, np.length + k.length < g → HeadNot isIdentExt k →
        AfterOWSHeadNot (fun c => c = '@') k →
        parseAttributes g acc (np ++ k) = .ok ((atts, np), k)) := by
  induction fuel with
  | zero =>
    intro acc l atts np rest h
    rw [parseAttributes_zero] at h
    exact absurd h (by simp)
  | succ fuel ih =>
    intro acc l atts np rest h
    rw [parseAttributes_succ] at h
    cases hsp : (splitOWS l).2 with
    | nil =>
      rw [hsp] at h
      simp only [PResult.ok.injEq, Prod.mk.injEq] at h
      obtain ⟨⟨hatts, hnp⟩, hrest⟩ := h
      subst hatts
      subst hnp
      subst hrest
      refine ⟨⟨[], by simp, by simp, spanConsume_nil⟩, Or.inl rfl, ?_⟩
      intro g k hg hk hak
      rw [List.nil_append]
      exact parseAttributes_stop_rep acc g k (by omega) hak
    | cons c r =>
      rw [hsp] at h
      simp only [] at h
      by_cases hcond : (c = '@' && (splitOWS l).1.any isWSChar) = true
      · rw [if_pos hcond] at h
        cases hpa : parseAttribute r with
        | fail e =>
          rw [hpa] at h
          exact absurd h (by simp)
        | ok x =>
          obtain ⟨⟨att, anp⟩, r2⟩ := x
          rw [hpa] at h
          simp only [] at h
          cases hrec : parseAttributes fuel (acc ++ [att]) r2 with
          | fail e =>
            rw [hrec] at h
            exact absurd h (by simp)
          | ok y =>
            obtain ⟨⟨atts2, np2⟩, r3⟩ := y
            rw [hrec] at h
            simp only [PResult.ok.injEq, Prod.mk.injEq] at h
            obtain ⟨⟨hatts, hnp⟩, hrest⟩ := h
            subst hatts
            subst hnp
            subst hrest
            have hcond' := hcond
            simp only [Bool.and_eq_true, decide_eq_true_eq] at hcond'
            obtain ⟨hcat, hany⟩ := hcond'
            subst hcat
            obtain ⟨⟨cons2, hdec2, hlen2, hspan2⟩, hstruct2, hrep2⟩ :=
              ih (acc ++ [att]) r2 atts2 np2 r3 hrec
            obtain ⟨consA, hanp, hdecA, hspanA, ⟨c0, t0, hconsA, hstart0⟩, hrepA⟩ :=
              parseAttribute_spec r att anp r2 hpa
            have hw := splitOWS_run_ows l
            have hldec := splitOWS_decomp l
            rw [hsp] at hldec
            rw [hdecA] at hldec
            rw [hdec2] at hldec
            have hcl : (collapseRun (splitOWS l).1).length ≤ (splitOWS l).1.length :=
              collapseGo_length _ false
            obtain ⟨cw, tw, hcw, hcwows⟩ := collapseRun_head _ hw hany
            have hcwlen : 1 ≤ (collapseRun (splitOWS l).1).length := by
              rw [hcw]
              simp
            have hanplen : anp.length = consA.length + 1 := by
              rw [hanp]
              simp
            refine ⟨⟨(splitOWS l).1 ++ ('@' :: (consA ++ cons2)), ?_, ?_, ?_⟩, ?_, ?_⟩
            · conv_lhs => rw [hldec]
              simp [List.append_assoc]
            · simp only [List.length_append, List.length_cons]
              omega
            · refine spanConsume_append _ _ (spanConsume_ows _ hw) ?_
              have e2 : '@' :: (consA ++ cons2) = ['@'] ++ consA ++ cons2 := by
                simp
              rw [e2]
              exact spanConsume_append _ _
                (spanConsume_append _ _ (spanConsume_one '@' (by decide) (by decide))
                  hspanA) hspan2
            · refine Or.inr ⟨collapseRun (splitOWS l).1, consA ++ np2, ?_,
                collapseRun_ows _ hw, ?_⟩
              · rw [hanp]
                simp
              · rw [hcw]
                simp
            · intro g k hg hk hak
              obtain ⟨g2, rfl⟩ : ∃ g2, g = g2 + 1 := ⟨g - 1, by omega⟩
              have e1 : (collapseRun (splitOWS l).1 ++ anp ++ np2) ++ k =
                  collapseRun (splitOWS l).1 ++ (anp ++ (np2 ++ k)) := by
                simp
              rw [e1, parseAttributes_succ]
              have hhead : HeadNot isOWSChar (anp ++ (np2 ++ k)) := by
                rw [hanp, List.cons_append]
                exact headNot_cons _ _ _ (by decide)
              rw [splitOWS_reparse _ _ (collapseRun_ows _ hw) hhead]
              simp only []
              have hrA := hrepA (np2 ++ k)
                (headNot_owsK isIdentExt np2 k (attStruct_head np2 hstruct2)
                  ows_not_identExt hk)
              rw [hanp, List.cons_append]
              simp only []
              have hanyC : (collapseRun (splitOWS l).1).any isWSChar = true :=
                collapseRun_any_ws _ hany
              rw [if_pos (by rw [hanyC] ; simp)]
              rw [hrA]
              simp only []
              have hr2 := hrep2 g2 k (by
                simp only [List.length_append] at hg
                rw [hanplen] at hg
                omega) hk hak
              rw [hr2]
              simp only []
              rw [collapseRun_idem, hanp]
      · rw [if_neg hcond] at h
        simp only [PResult.ok.injEq, Prod.mk.injEq] at h
        obtain ⟨⟨hatts, hnp⟩, hrest⟩ := h
        subst hatts
        subst hnp
        subst hrest
        refine ⟨⟨[], by simp, by simp, spanConsume_nil⟩, Or.inl rfl, ?_⟩
        intro g k hg hk hak
        rw [List.nil_append]
        exact parseAttributes_stop_rep acc g k (by omega) hak

theorem afterOWS_mono (p q : Char → Bool) (himp : ∀ c, q c = true → p c = true)
    (k : List Char) (hk : AfterOWSHeadNot p k) : AfterOWSHeadNot q k :=
  headNot_mono p q himp _ hk

theorem parseAnnotation_spec (l : List Char)
    (ann : List Char × List (List Char × MOperand)) (np rest : List Char)
    (h : parseAnnotation l = .ok ((ann, np), rest)) :
    ∃ inner cons, np = ':' :: inner ∧ l = cons ++ rest ∧
      inner.length ≤ cons.length ∧ SpanConsume cons ∧
      (∃ c t, inner = c :: t ∧ isNameStartChar c = true) ∧
      (∀ k, HeadNot isIdentExt k → AfterOWSHeadNot isNameStartChar k →
        parseAnnotation (inner ++ k) = .ok ((ann, np), k)) := by
  rw [ parseAnnotation] at h
  cases hpi : parseIdentifier l with
  | fail e =>
    rw [hpi] at h
    exact absurd h (by simp)
  | ok x =>
    obtain ⟨idf, r1⟩ := x
    rw [hpi] at h
    simp only [] at h
    cases hpo : parseOptions (r1.length + 1) [] r1 with
    | fail e =>
      rw [hpo] at h
      exact absurd h (by simp)
    | ok y =>
      obtain ⟨⟨opts, onp⟩, r2⟩ := y
      rw [hpo] at h
      simp only [PResult.ok.injEq, Prod.mk.injEq] at h
      obtain ⟨⟨hann, hnp⟩, hrest⟩ := h
      subst hann
      subst hnp
      subst hrest
      obtain ⟨hdecI, ⟨c0, t0, hidf, hstart⟩, hcharsI, hrepI⟩ :=
        parseIdentifier_spec l idf r1 hpi
      obtain ⟨⟨consO, hdecO, hlenO, hspanO⟩, hstructO, hrepO⟩ :=
        parseOptions_spec (r1.length + 1) [] r1 opts onp r2 hpo
      have hspanI : SpanConsume idf := by
        refine spanConsume_chars idf ?_
        intro d hd
        exact ⟨ne_of_pred isIdentChar d '}' (hcharsI d hd) (by decide),
          ne_of_pred isIdentChar d '|' (hcharsI d hd) (by decide)⟩
      refine ⟨idf ++ onp, idf ++ consO, by simp, ?_, ?_,
        spanConsume_append _ _ hspanI hspanO,
        ⟨c0, t0 ++ onp, by rw [hidf] ; simp, hstart⟩, ?_⟩
      · rw [hdecI, hdecO]
        simp
      · simp only [List.length_append]
        omega
      · intro k hk hak
        have e1 : (idf ++ onp) ++ k = idf ++ (onp ++ k) := by
          simp
        rw [e1, parseAnnotation,
          hrepI (onp ++ k) (headNot_owsK isIdentChar onp k
            (optStruct_head onp hstructO) ows_not_identChar
            (headNot_mono _ _ identExt_of_identChar k hk))]
        simp only []
        have hrO := hrepO ((onp ++ k).length + 1) k
          (by simp only [List.length_append] ; omega) hk hak
        rw [hrO]

theorem parseMarkupBody_spec (isC : Bool) (l : List Char)
    (v : List Char × List (List Char × MOperand) ×
      List (List Char × Option MOperand))
    (np rest : List Char) (h : parseMarkupBody isC l = .ok ((v, np), rest)) :
    ∃ cons, l = cons ++ rest ∧ np.length ≤ cons.length ∧ SpanConsume cons ∧
      (∃ c t, np = c :: t ∧ isNameStartChar c = true) ∧
      (∀ k, HeadNot isIdentExt k →
        AfterOWSHeadNot (fun c => isNameStartChar c || c = '@') k →
        parseMarkupBody isC (np ++ k) = .ok ((v, np), k)) := by
  rw [parseMarkupBody] at h
  cases hpi : parseIdentifier l with
  | fail e =>
    rw [hpi] at h
    exact absurd h (by simp)
  | ok x =>
    obtain ⟨idf, r1⟩ := x
    rw [hpi] at h
    simp only [] at h
    cases hpo : parseOptions (r1.length + 1) [] r1 with
    | fail e =>
      rw [hpo] at h
      exact absurd h (by simp)
    | ok y =>
      obtain ⟨⟨opts, onp⟩, r2⟩ := y
      rw [hpo] at h
      simp only [] at h
      by_cases hclo : (isC && !opts.isEmpty) = true
      · rw [if_pos hclo] at h
        exact absurd h (by simp)
      · rw [if_neg hclo] at h
        cases hpt : parseAttributes (r2.length + 1) [] r2 with
        | fail e =>
          rw [hpt] at h
          exact absurd h (by simp)
        | ok z =>
          obtain ⟨⟨atts, anp⟩, r3⟩ := z
          rw [hpt] at h
          simp only [PResult.ok.injEq, Prod.mk.injEq] at h
          obtain ⟨⟨hv, hnp⟩, hrest⟩ := h
          subst hv
          subst hnp
          subst hrest
          obtain ⟨hdecI, ⟨c0, t0, hidf, hstart⟩, hcharsI, hrepI⟩ :=
            parseIdentifier_spec l idf r1 hpi
          obtain ⟨⟨consO, hdecO, hlenO, hspanO⟩, hstructO, hrepO⟩ :=
            parseOptions_spec (r1.length + 1) [] r1 opts onp r2 hpo
          obtain ⟨⟨consA, hdecA, hlenA, hspanA⟩, hstructA, hrepA⟩ :=
            parseAttributes_spec (r2.length + 1) [] r2 atts anp r3 hpt
          have hspanI : SpanConsume idf := by
            refine spanConsume_chars idf ?_
            intro d hd
            exact ⟨ne_of_pred isIdentChar d '}' (hcharsI d hd) (by decide),
              ne_of_pred isIdentChar d '|' (hcharsI d hd) (by decide)⟩
          refine ⟨idf ++ consO ++ consA, ?_, ?_,
            spanConsume_append _ _ (spanConsume_append _ _ hspanI hspanO) hspanA,
            ⟨c0, t0 ++ onp ++ anp, by rw [hidf] ; simp, hstart⟩, ?_⟩
          · rw [hdecI, hdecO, hdecA]
            simp
          · simp only [List.length_append]
            omega
          · intro k hk hak
            have e1 : (idf ++ onp ++ anp) ++ k = idf ++ (onp ++ (anp ++ k)) := by
              simp
            rw [e1, parseMarkupBody]
            have hkI : HeadNot isIdentChar (onp ++ (anp ++ k)) :=
              headNot_owsK _ _ _ (optStruct_head onp hstructO) ows_not_identChar
                (headNot_owsK _ _ _ (attStruct_head anp hstructA) ows_not_identChar
                  (headNot_mono _ _ identExt_of_identChar k hk))
            rw [hrepI _ hkI]
            simp only []
            have hkO : HeadNot isIdentExt (anp ++ k) :=
              headNot_owsK _ _ _ (attStruct_head anp hstructA) ows_not_identExt hk
            have hakO : AfterOWSHeadNot isNameStartChar (anp ++ k) :=
              attStruct_afterOWS isNameStartChar anp k hstructA (by decide)
                (afterOWS_mono _ _ (fun c hq => by rw [hq] ; rfl) k hak)
            have hrO := hrepO ((onp ++ (anp ++ k)).length + 1) (anp ++ k)
              (by simp only [List.length_append] ; omega) hkO hakO
            rw [hrO]
            simp only []
            rw [if_neg hclo]
            have hakA : AfterOWSHeadNot (fun c => c = '@') k :=
              afterOWS_mono _ _ (fun c hq => by rw [hq] ; simp) k hak
            have hrA := hrepA ((anp ++ k).length + 1) k
              (by simp only [List.length_append] ; omega) hk hakA
            rw [hrA]

theorem parseExprBody_noann (c : Char) (r r1 : List Char) (op : MOperand)
    (onp : List Char) (atts : List (List Char × Option MOperand))
    (tnp r2 : List Char)
    (hpo : parseOperand (c :: r) = .ok ((op, onp), r1))
    (hpt : parseAttributes (r1.length + 1) [] r1 = .ok ((atts, tnp), r2)) :
    ∃ cons, c :: r = cons ++ r2 ∧ (onp ++ tnp).length ≤ cons.length ∧
      SpanConsume cons ∧
      (∃ c0 t, onp ++ tnp = c0 :: t ∧ isExprStart c0 = true) ∧
      (∀ k, HeadNot isIdentExt k →
        AfterOWSHeadNot (fun c => isNameStartChar c || c = '@' || c = ':') k →
        parseExprBody ((onp ++ tnp) ++ k) =
          .ok ((.expression (some op) none atts, onp ++ tnp), k)) := by
  obtain ⟨hdecO, ⟨c0, t0, honp, hop0⟩, hrepO, hspanO⟩ :=
    parseOperand_spec (c :: r) op onp r1 hpo
  obtain ⟨⟨consT, hdecT, hlenT, hspanT⟩, hstructT, hrepT⟩ :=
    parseAttributes_spec (r1.length + 1) [] r1 atts tnp r2 hpt
  refine ⟨onp ++ consT, ?_, ?_, spanConsume_append _ _ hspanO hspanT,
    ⟨c0, t0 ++ tnp, by rw [honp] ; simp,
      exprStart_of_opStart c0 hop0⟩, ?_⟩
  · rw [hdecO, hdecT]
    simp
  · simp only [List.length_append]
    omega
  · intro k hk hak
    have hakT : AfterOWSHeadNot (fun c => c = '@') k :=
      afterOWS_mono _ _ (fun d hq => by rw [hq] ; simp) k hak
    have e1 : (onp ++ tnp) ++ k = onp ++ (tnp ++ k) := by
      simp
    rw [e1, honp, List.cons_append, parseExprBody]
    rw [if_neg (ne_of_pred isOpStart c0 ':' hop0 (by decide))]
    have hrO := hrepO (tnp ++ k)
      (headNot_owsK isNameChar tnp k (attStruct_head tnp hstructT)
        ows_not_nameChar (headNot_mono _ _ identExt_of_nameChar k hk))
    rw [honp, List.cons_append] at hrO
    rw [hrO]
    simp only []
    rcases hstructT with htnp0 | ⟨w, t, htnp, hwows, hwne⟩
    · subst htnp0
      rw [List.nil_append]
      cases hsk : (splitOWS k).2 with
      | nil =>
        simp only []
        have hrT := hrepT (k.length + 1) k (by simp only [List.length_nil] ; omega) hk hakT
        rw [List.nil_append] at hrT
        rw [hrT]
      | cons ck kr =>
        simp only []
        have hck := hak ck (by rw [hsk] ; rfl)
        simp only [Bool.or_eq_false_iff, decide_eq_false_iff_not] at hck
        rw [if_neg (by simp [hck.2])]
        have hrT := hrepT (k.length + 1) k (by simp only [List.length_nil] ; omega) hk hakT
        rw [List.nil_append] at hrT
        rw [hrT]
    · have he : tnp ++ k = w ++ ('@' :: (t ++ k)) := by
        rw [htnp]
        simp
      rw [he]
      have hsplit := splitOWS_reparse w ('@' :: (t ++ k)) hwows
        (headNot_cons _ _ _ (by decide))
      rw [hsplit]
      simp only []
      rw [if_neg (by simp)]
      have hrT := hrepT ((tnp ++ k).length + 1) k
        (by simp only [List.length_append] ; omega) hk hakT
      rw [he] at hrT
      rw [hrT]

theorem parseExprBody_spec (l : List Char) (body : PlaceholderBody)
    (np rest : List Char) (h : parseExprBody l = .ok ((body, np), rest)) :
    ∃ cons, l = cons ++ rest ∧ np.length ≤ cons.length ∧ SpanConsume cons ∧
      (∃ c t, np = c :: t ∧ isExprStart c = true) ∧
      (∀ k, HeadNot isIdentExt k →
        AfterOWSHeadNot (fun c => isNameStartChar c || c = '@' || c = ':') k →
        parseExprBody (np ++ k) = .ok ((body, np), k)) := by
  rw [parseExprBody.eq_def] at h
  cases l with
  | nil => exact absurd h (by simp)
  | cons c r =>
    simp only [] at h
    by_cases hc : c = ':'
    · subst hc
      rw [if_pos rfl] at h
      cases hpa : parseAnnotation r with
      | fail e =>
        rw [hpa] at h
        exact absurd h (by simp)
      | ok x =>
        obtain ⟨⟨ann, anp⟩, r1⟩ := x
        rw [hpa] at h
        simp only [] at h
        cases hpt : parseAttributes (r1.length + 1) [] r1 with
        | fail e =>
          rw [hpt] at h
          exact absurd h (by simp)
        | ok y =>
          obtain ⟨⟨atts, tnp⟩, r2⟩ := y
          rw [hpt] at h
          simp only [PResult.ok.injEq, Prod.mk.injEq] at h
          obtain ⟨⟨hbody, hnp⟩, hrest⟩ := h
          subst hbody
          subst hnp
          subst hrest
          obtain ⟨annInner, annCons, hanp, hdecA, hlenA, hspanA,
            ⟨c0, t0, hinner, hstart0⟩, hrepAnn⟩ :=
            parseAnnotation_spec r ann anp r1 hpa
          obtain ⟨⟨consT, hdecT, hlenT, hspanT⟩, hstructT, hrepT⟩ :=
            parseAttributes_spec (r1.length + 1) [] r1 atts tnp r2 hpt
          have hanplen : anp.length = annInner.length + 1 := by
            rw [hanp]
            simp
          refine ⟨':' :: (annCons ++ consT), ?_, ?_, ?_,
            ⟨':', annInner ++ tnp, by rw [hanp] ; simp, by decide⟩, ?_⟩
          · rw [hdecA, hdecT]
            simp
          · simp only [List.length_append, List.length_cons]
            omega
          · have e2 : ':' :: (annCons ++ consT) = [':'] ++ annCons ++ consT := by
              simp
            rw [e2]
            exact spanConsume_append _ _
              (spanConsume_append _ _ (spanConsume_one ':' (by decide) (by decide))
                hspanA) hspanT
          · intro k hk hak
            have hakT : AfterOWSHeadNot (fun c => c = '@') k :=
              afterOWS_mono _ _ (fun d hq => by rw [hq] ; simp) k hak
            have e1 : (anp ++ tnp) ++ k = ':' :: (annInner ++ (tnp ++ k)) := by
              rw [hanp]
              simp
            rw [e1, parseExprBody]
            rw [if_pos rfl]
            have hkA : HeadNot isIdentExt (tnp ++ k) :=
              headNot_owsK _ _ _ (attStruct_head tnp hstructT) ows_not_identExt hk
            have hakA : AfterOWSHeadNot isNameStartChar (tnp ++ k) :=
              attStruct_afterOWS isNameStartChar tnp k hstructT (by decide)
                (afterOWS_mono _ _ (fun d hq => by rw [hq] ; rfl) k hak)
            rw [hrepAnn (tnp ++ k) hkA hakA]
            simp only []
            have hrT := hrepT ((tnp ++ k).length + 1) k
              (by simp only [List.length_append] ; omega) hk hakT
            rw [hrT]
    · rw [if_neg hc] at h
      cases hpo : parseOperand (c :: r) with
      | fail e =>
        rw [hpo] at h
        exact absurd h (by simp)
      | ok x =>
        obtain ⟨⟨op, onp⟩, r1⟩ := x
        rw [hpo] at h
        simp only [] at h
        cases hs2 : (splitOWS r1).2 with
        | nil =>
          rw [hs2] at h
          simp only [] at h
          cases hpt : parseAttributes (r1.length + 1) [] r1 with
          | fail e =>
            rw [hpt] at h
            exact absurd h (by simp)
          | ok y =>
            obtain ⟨⟨atts, tnp⟩, r2⟩ := y
            rw [hpt] at h
            simp only [PResult.ok.injEq, Prod.mk.injEq] at h
            obtain ⟨⟨hbody, hnp⟩, hrest⟩ := h
            subst hbody
            subst hnp
            subst hrest
            exact parseExprBody_noann c r r1 op onp atts tnp r2 hpo hpt
        | cons c2 r2' =>
          rw [hs2] at h
          simp only [] at h
          by_cases hcnd : (c2 = ':' && (splitOWS r1).1.any isWSChar) = true
          · rw [if_pos hcnd] at h
            have hcnd' := hcnd
            simp only [Bool.and_eq_true, decide_eq_true_eq] at hcnd'
            obtain ⟨hc2, hany⟩ := hcnd'
            subst hc2
            cases hpa : parseAnnotation r2' with
            | fail e =>
              rw [hpa] at h
              exact absurd h (by simp)
            | ok y =>
              obtain ⟨⟨ann, anp⟩, r3⟩ := y
              rw [hpa] at h
              simp only [] at h
              cases hpt : parseAttributes (r3.length + 1) [] r3 with
              | fail e =>
                rw [hpt] at h
                exact absurd h (by simp)
              | ok z =>
                obtain ⟨⟨atts, tnp⟩, r4⟩ := z
                rw [hpt] at h
                simp only [PResult.ok.injEq, Prod.mk.injEq] at h
                obtain ⟨⟨hbody, hnp⟩, hrest⟩ := h
                subst hbody
                subst hnp
                subst hrest
                obtain ⟨hdecO, ⟨c0, t0, honp, hop0⟩, hrepO, hspanO⟩ :=
                  parseOperand_spec (c :: r) op onp r1 hpo
                obtain ⟨annInner, annCons, hanp, hdecA, hlenA, hspanA,
                  ⟨ca, ta, hinner, hstarta⟩, hrepAnn⟩ :=
                  parseAnnotation_spec r2' ann anp r3 hpa
                obtain ⟨⟨consT, hdecT, hlenT, hspanT⟩, hstructT, hrepT⟩ :=
                  parseAttributes_spec (r3.length + 1) [] r3 atts tnp r4 hpt
                have hw := splitOWS_run_ows r1
                have hr1dec := splitOWS_decomp r1
                rw [hs2] at hr1dec
                rw [hdecA] at hr1dec
                rw [hdecT] at hr1dec
                have hcl : (collapseRun (splitOWS r1).1).length ≤
                    (splitOWS r1).1.length := collapseGo_length _ false
                obtain ⟨cw, tw, hcw, hcwows⟩ := collapseRun_head _ hw hany
                have hanplen : anp.length = annInner.length + 1 := by
                  rw [hanp]
                  simp
                refine ⟨onp ++ ((splitOWS r1).1 ++ (':' :: (annCons ++ consT))),
                  ?_, ?_, ?_, ⟨c0, t0 ++ (collapseRun (splitOWS r1).1 ++ anp ++ tnp),
                    by rw [honp] ; simp, exprStart_of_opStart c0 hop0⟩, ?_⟩
                · rw [hdecO]
                  conv_lhs => rw [hr1dec]
                  simp [List.append_assoc]
                · simp only [List.length_append, List.length_cons]
                  have hcwlen : 1 ≤ (collapseRun (splitOWS r1).1).length := by
                    rw [hcw]
                    simp
                  omega
                · refine spanConsume_append _ _ hspanO ?_
                  refine spanConsume_append _ _ (spanConsume_ows _ hw) ?_
                  have e2 : ':' :: (annCons ++ consT) = [':'] ++ annCons ++ consT := by
                    simp
                  rw [e2]
                  exact spanConsume_append _ _
                    (spanConsume_append _ _
                      (spanConsume_one ':' (by decide) (by decide)) hspanA) hspanT
                · intro k hk hak
                  have hakT : AfterOWSHeadNot (fun c => c = '@') k :=
                    afterOWS_mono _ _ (fun d hq => by rw [hq] ; simp) k hak
                  have e1 : (onp ++ collapseRun (splitOWS r1).1 ++ anp ++ tnp) ++ k =
                      onp ++ (collapseRun (splitOWS r1).1 ++
                        (':' :: (annInner ++ (tnp ++ k)))) := by
                    rw [hanp]
                    simp
                  rw [e1, honp, List.cons_append, parseExprBody]
                  rw [if_neg (ne_of_pred isOpStart c0 ':' hop0 (by decide))]
                  have hrO := hrepO (collapseRun (splitOWS r1).1 ++
                      (':' :: (annInner ++ (tnp ++ k))))
                    (by
                      rw [hcw, List.cons_append]
                      exact headNot_cons _ _ _ (ows_not_nameChar cw hcwows))
                  rw [honp, List.cons_append] at hrO
                  rw [hrO]
                  simp only []
                  rw [splitOWS_reparse _ _ (collapseRun_ows _ hw)
                    (headNot_cons _ _ _ (by decide))]
                  simp only []
                  have hanyC : (collapseRun (splitOWS r1).1).any isWSChar = true :=
                    collapseRun_any_ws _ hany
                  rw [if_pos (by rw [hanyC] ; rfl)]
                  have hkA : HeadNot isIdentExt (tnp ++ k) :=
                    headNot_owsK _ _ _ (attStruct_head tnp hstructT)
                      ows_not_identExt hk
                  have hakA : AfterOWSHeadNot isNameStartChar (tnp ++ k) :=
                    attStruct_afterOWS isNameStartChar tnp k hstructT (by decide)
                      (afterOWS_mono _ _ (fun d hq => by rw [hq] ; rfl) k hak)
                  rw [hrepAnn (tnp ++ k) hkA hakA]
                  simp only []
                  have hrT := hrepT ((tnp ++ k).length + 1) k
                    (by simp only [List.length_append] ; omega) hk hakT
                  rw [hrT]
                  simp only []
                  rw [collapseRun_idem, hanp]
          · rw [if_neg hcnd] at h
            cases hpt : parseAttributes (r1.length + 1) [] r1 with
            | fail e =>
              rw [hpt] at h
              exact absurd h (by simp)
            | ok y =>
              obtain ⟨⟨atts, tnp⟩, r2⟩ := y
              rw [hpt] at h
              simp only [PResult.ok.injEq, Prod.mk.injEq] at h
              obtain ⟨⟨hbody, hnp⟩, hrest⟩ := h
              subst hbody
              subst hnp
              subst hrest
              exact parseExprBody_noann c r r1 op onp atts tnp r2 hpo hpt

theorem parsePlaceholder_spec (l : List Char) (op : PlaceholderBody)
    (np r2 : List Char)
    (h : parsePlaceholder l = .ok ((op, np), r2)) :
    (∃ inner, np = '{' :: inner ∧
      ∀ k, parsePlaceholder (inner ++ k) = .ok ((op, np), k)) ∧
    np.length + r2.length ≤ 1 + l.length ∧
    r2.length < l.length ∧
    skipSpan (l.length + 1) l = some r2 := by
  rw [parsePlaceholder] at h
  cases hsp : (splitOWS l).2 with
  | nil =>
    rw [hsp] at h
    exact absurd h (by simp)
  | cons c r =>
    rw [hsp] at h
    simp only [] at h
    have hldec := splitOWS_decomp l
    rw [hsp] at hldec
    have hw1 := splitOWS_run_ows l
    have hcl1 : (collapseRun (splitOWS l).1).length ≤ (splitOWS l).1.length :=
      collapseGo_length _ false
    by_cases hcm : (c = '#' || c = '/') = true
    · rw [if_pos hcm] at h
      have hcm' : c = '#' ∨ c = '/' := by
        simp only [Bool.or_eq_true, decide_eq_true_eq] at hcm
        exact hcm
      have hcnotows : isOWSChar c = false := by
        rcases hcm' with h1 | h1
        · subst h1
          decide
        · subst h1
          decide
      have hcne1 : ¬ c = '}' := by
        rcases hcm' with h1 | h1
        · subst h1
          decide
        · subst h1
          decide
      have hcne2 : ¬ c = '|' := by
        rcases hcm' with h1 | h1
        · subst h1
          decide
        · subst h1
          decide
      cases hmb : parseMarkupBody (c = '/') r with
      | fail e =>
        rw [hmb] at h
        exact absurd h (by simp)
      | ok x =>
        obtain ⟨⟨⟨idf, opts, atts⟩, bnp⟩, rb⟩ := x
        rw [hmb] at h
        simp only [] at h
        cases hs2 : (splitOWS rb).2 with
        | nil =>
          rw [hs2] at h
          exact absurd h (by simp)
        | cons c2 r3 =>
          rw [hs2] at h
          simp only [] at h
          have hrbdec := splitOWS_decomp rb
          rw [hs2] at hrbdec
          have hw2 := splitOWS_run_ows rb
          have hcl2 : (collapseRun (splitOWS rb).1).length ≤ (splitOWS rb).1.length :=
            collapseGo_length _ false
          obtain ⟨consB, hdecB, hlenB, hspanB, ⟨cb, tb, hbnp, hstartb⟩, hrepB⟩ :=
            parseMarkupBody_spec (c = '/') r (idf, opts, atts) bnp rb hmb
          have hbnplen : 1 ≤ bnp.length := by
            rw [hbnp]
            simp
          by_cases hc2 : c2 = '}'
          · subst hc2
            rw [if_pos rfl] at h
            simp only [PResult.ok.injEq, Prod.mk.injEq] at h
            obtain ⟨⟨hop, hnp⟩, hrest⟩ := h
            subst hop
            subst hnp
            subst hrest
            rw [hdecB] at hldec
            rw [hrbdec] at hldec
            have hllen := congrArg List.length hldec
            simp only [List.length_append, List.length_cons] at hllen
            refine ⟨⟨collapseRun (splitOWS l).1 ++ c :: bnp ++
              collapseRun (splitOWS rb).1 ++ ['}'], rfl, ?_⟩, ?_, ?_, ?_⟩
            · intro k
              rw [parsePlaceholder]
              have e1 : (collapseRun (splitOWS l).1 ++ c :: bnp ++
                  collapseRun (splitOWS rb).1 ++ ['}']) ++ k =
                  collapseRun (splitOWS l).1 ++
                    (c :: (bnp ++ (collapseRun (splitOWS rb).1 ++ ('}' :: k)))) := by
                simp
              rw [e1, splitOWS_reparse _ _ (collapseRun_ows _ hw1)
                (headNot_cons _ _ _ hcnotows)]
              simp only []
              rw [if_pos hcm]
              have hkB : HeadNot isIdentExt
                  (collapseRun (splitOWS rb).1 ++ ('}' :: k)) :=
                headNot_append _ _ _
                  (fun d hd => ows_not_identExt d (collapseRun_ows _ hw2 d hd))
                  (headNot_cons _ _ _ (by decide))
              have hakB : AfterOWSHeadNot (fun c => isNameStartChar c || c = '@')
                  (collapseRun (splitOWS rb).1 ++ ('}' :: k)) := by
                show HeadNot _ (splitOWS _).2
                rw [splitOWS_reparse _ _ (collapseRun_ows _ hw2)
                  (headNot_cons _ _ _ (by decide))]
                exact headNot_cons _ _ _ (by decide)
              rw [hrepB _ hkB hakB]
              simp only []
              rw [splitOWS_reparse _ _ (collapseRun_ows _ hw2)
                (headNot_cons _ _ _ (by decide))]
              simp [collapseRun_idem]
            · simp only [List.length_cons, List.length_append, List.length_nil]
              omega
            · omega
            · have s1 : skipSpan 1 ('}' :: r3) = some r3 := skipSpan_succ_rbrace 0 r3
              have s2 := spanConsume_ows _ hw2 1 ('}' :: r3) r3 s1
              have s3 := hspanB _ _ _ s2
              have s4 := spanConsume_one c hcne1 hcne2 _ _ _ s3
              have s5 := spanConsume_ows _ hw1 _ _ _ s4
              rw [List.singleton_append] at s5
              rw [← hldec] at s5
              refine skipSpan_mono _ _ _ _ ?_ s5
              simp only [List.length_cons, List.length_append, List.length_nil]
              omega
          · rw [if_neg hc2] at h
            by_cases hc2b : c2 = '/'
            · subst hc2b
              rw [if_pos rfl] at h
              by_cases hch : c = '#'
              · subst hch
                rw [if_pos rfl] at h
                cases r3 with
                | nil => exact absurd h (by simp)
                | cons c3 r4 =>
                  simp only [] at h
                  by_cases hc3 : c3 = '}'
                  · subst hc3
                    rw [if_pos rfl] at h
                    simp only [PResult.ok.injEq, Prod.mk.injEq] at h
                    obtain ⟨⟨hop, hnp⟩, hrest⟩ := h
                    subst hop
                    subst hnp
                    subst hrest
                    rw [hdecB] at hldec
                    rw [hrbdec] at hldec
                    have hllen := congrArg List.length hldec
                    simp only [List.length_append, List.length_cons] at hllen
                    refine ⟨⟨collapseRun (splitOWS l).1 ++ '#' :: bnp ++
                      collapseRun (splitOWS rb).1 ++ '/' :: ['}'], rfl, ?_⟩,
                      ?_, ?_, ?_⟩
                    · intro k
                      rw [parsePlaceholder]
                      have e1 : (collapseRun (splitOWS l).1 ++ '#' :: bnp ++
                          collapseRun (splitOWS rb).1 ++ '/' :: ['}']) ++ k =
                          collapseRun (splitOWS l).1 ++
                            ('#' :: (bnp ++ (collapseRun (splitOWS rb).1 ++
                              ('/' :: ('}' :: k))))) := by
                        simp
                      rw [e1, splitOWS_reparse _ _ (collapseRun_ows _ hw1)
                        (headNot_cons _ _ _ (by decide))]
                      simp only []
                      rw [if_pos (by decide)]
                      have hkB : HeadNot isIdentExt
                          (collapseRun (splitOWS rb).1 ++ ('/' :: ('}' :: k))) :=
                        headNot_append _ _ _
                          (fun d hd => ows_not_identExt d (collapseRun_ows _ hw2 d hd))
                          (headNot_cons _ _ _ (by decide))
                      have hakB : AfterOWSHeadNot
                          (fun c => isNameStartChar c || c = '@')
                          (collapseRun (splitOWS rb).1 ++ ('/' :: ('}' :: k))) := by
                        show HeadNot _ (splitOWS _).2
                        rw [splitOWS_reparse _ _ (collapseRun_ows _ hw2)
                          (headNot_cons _ _ _ (by decide))]
                        exact headNot_cons _ _ _ (by decide)
                      rw [hrepB _ hkB hakB]
                      simp only []
                      rw [splitOWS_reparse _ _ (collapseRun_ows _ hw2)
                        (headNot_cons _ _ _ (by decide))]
                      simp [collapseRun_idem]
                    · simp only [List.length_cons, List.length_append, List.length_nil]
                      omega
                    · omega
                    · have s1 : skipSpan 1 ('}' :: r4) = some r4 :=
                        skipSpan_succ_rbrace 0 r4
                      have s1b : skipSpan 2 ('/' :: ('}' :: r4)) = some r4 := by
                        rw [skipSpan_succ_other 1 '/' ('}' :: r4) (by decide) (by decide)]
                        exact s1
                      have s2 := spanConsume_ows _ hw2 2 ('/' :: ('}' :: r4)) r4 s1b
                      have s3 := hspanB _ _ _ s2
                      have s4 := spanConsume_one '#' (by decide) (by decide) _ _ _ s3
                      have s5 := spanConsume_ows _ hw1 _ _ _ s4
                      rw [List.singleton_append] at s5
                      rw [← hldec] at s5
                      refine skipSpan_mono _ _ _ _ ?_ s5
                      simp only [List.length_cons, List.length_append, List.length_nil]
                      omega
                  · rw [if_neg hc3] at h
                    exact absurd h (by simp)
              · rw [if_neg hch] at h
                exact absurd h (by simp)
            · rw [if_neg hc2b] at h
              exact absurd h (by simp)
    · rw [if_neg hcm] at h
      cases heb : parseExprBody (c :: r) with
      | fail e =>
        rw [heb] at h
        exact absurd h (by simp)
      | ok x =>
        obtain ⟨⟨body, bnp⟩, rb⟩ := x
        rw [heb] at h
        simp only [] at h
        cases hs2 : (splitOWS rb).2 with
        | nil =>
          rw [hs2] at h
          exact absurd h (by simp)
        | cons c2 r3 =>
          rw [hs2] at h
          simp only [] at h
          by_cases hc2 : c2 = '}'
          · subst hc2
            rw [if_pos rfl] at h
            simp only [PResult.ok.injEq, Prod.mk.injEq] at h
            obtain ⟨⟨hop, hnp⟩, hrest⟩ := h
            subst hop
            subst hnp
            subst hrest
            have hrbdec := splitOWS_decomp rb
            rw [hs2] at hrbdec
            have hw2 := splitOWS_run_ows rb
            have hcl2 : (collapseRun (splitOWS rb).1).length ≤
                (splitOWS rb).1.length := collapseGo_length _ false
            obtain ⟨consB, hdecB, hlenB, hspanB, ⟨cb, tb, hbnp, hstartb⟩, hrepB⟩ :=
              parseExprBody_spec (c :: r) body bnp rb heb
            have hbnplen : 1 ≤ bnp.length := by
              rw [hbnp]
              simp
            rw [hdecB] at hldec
            rw [hrbdec] at hldec
            have hllen := congrArg List.length hldec
            simp only [List.length_append, List.length_cons] at hllen
            refine ⟨⟨collapseRun (splitOWS l).1 ++ bnp ++
              collapseRun (splitOWS rb).1 ++ ['}'], rfl, ?_⟩, ?_, ?_, ?_⟩
            · intro k
              rw [parsePlaceholder]
              have e1 : (collapseRun (splitOWS l).1 ++ bnp ++
                  collapseRun (splitOWS rb).1 ++ ['}']) ++ k =
                  collapseRun (splitOWS l).1 ++
                    (cb :: (tb ++ (collapseRun (splitOWS rb).1 ++ ('}' :: k)))) := by
                rw [hbnp]
                simp
              rw [e1, splitOWS_reparse _ _ (collapseRun_ows _ hw1)
                (headNot_cons _ _ _ (exprStart_not_ows cb hstartb))]
              simp only []
              rw [if_neg (by
                simp [ne_of_pred isExprStart cb '#' hstartb (by decide),
                  ne_of_pred isExprStart cb '/' hstartb (by decide)])]
              have hkB : HeadNot isIdentExt
                  (collapseRun (splitOWS rb).1 ++ ('}' :: k)) :=
                headNot_append _ _ _
                  (fun d hd => ows_not_identExt d (collapseRun_ows _ hw2 d hd))
                  (headNot_cons _ _ _ (by decide))
              have hakB : AfterOWSHeadNot
                  (fun c => isNameStartChar c || c = '@' || c = ':')
                  (collapseRun (splitOWS rb).1 ++ ('}' :: k)) := by
                show HeadNot _ (splitOWS _).2
                rw [splitOWS_reparse _ _ (collapseRun_ows _ hw2)
                  (headNot_cons _ _ _ (by decide))]
                exact headNot_cons _ _ _ (by decide)
              have hrB := hrepB (collapseRun (splitOWS rb).1 ++ ('}' :: k)) hkB hakB
              rw [hbnp, List.cons_append] at hrB
              rw [hrB]
              simp only []
              rw [splitOWS_reparse _ _ (collapseRun_ows _ hw2)
                (headNot_cons _ _ _ (by decide))]
              simp [collapseRun_idem, hbnp]
            · simp only [List.length_cons, List.length_append, List.length_nil]
              omega
            · omega
            · have s1 : skipSpan 1 ('}' :: r3) = some r3 := skipSpan_succ_rbrace 0 r3
              have s2 := spanConsume_ows _ hw2 1 ('}' :: r3) r3 s1
              have s3 := hspanB _ _ _ s2
              have s5 := spanConsume_ows _ hw1 _ _ _ s3
              rw [← hldec] at s5
              refine skipSpan_mono _ _ _ _ ?_ s5
              omega
          · rw [if_neg hc2] at h
            exact absurd h (by simp)


/-! ## Lemmas: the simple-message loop -/

theorem parseSegs_zero (l : List Char) : parseSegs 0 l = .fail l := by
  rw [parseSegs.eq_def]

theorem parseSegs_succ_nil (fuel : Nat) : parseSegs (fuel + 1) [] = .ok ([], []) := by
  rw [parseSegs.eq_def]

theorem parseSegs_succ_bslash_nil (fuel : Nat) :
    parseSegs (fuel + 1) ['\\'] = .fail [] := by
  rw [parseSegs.eq_def]
  simp

theorem parseSegs_succ_bslash (fuel : Nat) (c2 : Char) (r2 : List Char) :
    parseSegs (fuel + 1) ('\\' :: c2 :: r2) =
      if isEscapableChar c2 then
        match parseSegs fuel r2 with
        | .ok (m, n) => .ok (.escape c2 :: m, '\\' :: c2 :: n)
        | .fail e => .fail e
      else .fail (c2 :: r2) := by
  rw [parseSegs.eq_def]
  simp

theorem parseSegs_succ_lbrace (fuel : Nat) (r : List Char) :
    parseSegs (fuel + 1) ('{' :: r) =
      match parsePlaceholder r with
      | .fail e => .fail e
      | .ok ((op, np), r2) =>
        match parseSegs fuel r2 with
        | .ok (m, n) => .ok (.placeholder op :: m, np ++ n)
        | .fail e => .fail e := by
  rw [parseSegs.eq_def]
  simp

theorem parseSegs_succ_other (fuel : Nat) (c : Char) (r : List Char)
    (h1 : ¬ c = '\\') (h2 : ¬ c = '{') :
    parseSegs (fuel + 1) (c :: r) =
      if isTextChar c then
        match parseSegs fuel r with
        | .ok (m, n) => .ok (.text c :: m, c :: n)
        | .fail e => .fail e
      else .fail (c :: r) := by
  rw [parseSegs.eq_def]
  simp [h1, h2]

theorem stripPh_zero (l : List Char) : stripPh 0 l = none := by
  rw [stripPh.eq_def]

theorem stripPh_succ_nil (fuel : Nat) : stripPh (fuel + 1) [] = some [] := by
  rw [stripPh.eq_def]

theorem stripPh_succ_bslash_nil (fuel : Nat) : stripPh (fuel + 1) ['\\'] = none := by
  rw [stripPh.eq_def]
  simp

theorem stripPh_succ_bslash (fuel : Nat) (c2 : Char) (r2 : List Char) :
    stripPh (fuel + 1) ('\\' :: c2 :: r2) =
      if isEscapableChar c2 then
        match stripPh fuel r2 with
        | some t => some (c2 :: t)
        | none => none
      else none := by
  rw [stripPh.eq_def]
  simp

theorem stripPh_succ_lbrace (fuel : Nat) (r : List Char) :
    stripPh (fuel + 1) ('{' :: r) =
      match skipSpan (r.length + 1) r with
      | some r2 => stripPh fuel r2
      | none => none := by
  rw [stripPh.eq_def]
  simp

theorem stripPh_succ_other (fuel : Nat) (c : Char) (r : List Char)
    (h1 : ¬ c = '\\') (h2 : ¬ c = '{') :
    stripPh (fuel + 1) (c :: r) =
      if isTextChar c then
        match stripPh fuel r with
        | some t => some (c :: t)
        | none => none
      else none := by
  rw [stripPh.eq_def]
  simp [h1, h2]

theorem patternText_nil : patternText [] = [] := rfl

theorem patternText_cons (s : Seg) (m : List Seg) :
    patternText (s :: m) = s.resolved ++ patternText m := by
  rw [patternText, patternText, List.map_cons, List.flatten_cons]

theorem parseSegs_strip (fuel : Nat) :
    ∀ l m n, parseSegs fuel l = .ok (m, n) →
      stripPh fuel l = some (patternText m) := by
  induction fuel with
  | zero =>
    intro l m n h
    rw [parseSegs_zero] at h
    exact absurd h (by simp)
  | succ fuel ih =>
    intro l m n h
    cases l with
    | nil =>
      rw [parseSegs_succ_nil] at h
      simp only [PResult.ok.injEq, Prod.mk.injEq] at h
      obtain ⟨hm, hn⟩ := h
      subst hm
      rw [stripPh_succ_nil, patternText_nil]
    | cons c r =>
      by_cases h1 : c = '\\'
      · subst h1
        cases r with
        | nil =>
          rw [parseSegs_succ_bslash_nil] at h
          exact absurd h (by simp)
        | cons c2 r2 =>
          rw [parseSegs_succ_bslash] at h
          by_cases hesc : isEscapableChar c2 = true
          · rw [if_pos hesc] at h
            cases hrec : parseSegs fuel r2 with
            | fail e =>
              rw [hrec] at h
              exact absurd h (by simp)
            | ok x =>
              obtain ⟨m2, n2⟩ := x
              rw [hrec] at h
              simp only [PResult.ok.injEq, Prod.mk.injEq] at h
              obtain ⟨hm, hn⟩ := h
              subst hm
              rw [stripPh_succ_bslash, if_pos hesc, ih r2 m2 n2 hrec,
                patternText_cons]
              rfl
          · rw [if_neg hesc] at h
            exact absurd h (by simp)
      · by_cases h2 : c = '{'
        · subst h2
          rw [parseSegs_succ_lbrace] at h
          cases hph : parsePlaceholder r with
          | fail e =>
            rw [hph] at h
            exact absurd h (by simp)
          | ok x =>
            obtain ⟨⟨op, np⟩, r2⟩ := x
            rw [hph] at h
            simp only [] at h
            cases hrec : parseSegs fuel r2 with
            | fail e =>
              rw [hrec] at h
              exact absurd h (by simp)
            | ok y =>
              obtain ⟨m2, n2⟩ := y
              rw [hrec] at h
              simp only [PResult.ok.injEq, Prod.mk.injEq] at h
              obtain ⟨hm, hn⟩ := h
              subst hm
              obtain ⟨_, _, _, hskip⟩ := parsePlaceholder_spec r op np r2 hph
              rw [stripPh_succ_lbrace, hskip]
              simp only []
              rw [ih r2 m2 n2 hrec, patternText_cons]
              rfl
        · rw [parseSegs_succ_other fuel c r h1 h2] at h
          by_cases htext : isTextChar c = true
          · rw [if_pos htext] at h
            cases hrec : parseSegs fuel r with
            | fail e =>
              rw [hrec] at h
              exact absurd h (by simp)
            | ok x =>
              obtain ⟨m2, n2⟩ := x
              rw [hrec] at h
              simp only [PResult.ok.injEq, Prod.mk.injEq] at h
              obtain ⟨hm, hn⟩ := h
              subst hm
              rw [stripPh_succ_other fuel c r h1 h2, if_pos htext,
                ih r m2 n2 hrec, patternText_cons]
              rfl
          · rw [if_neg htext] at h
            exact absurd h (by simp)

/-- C4: for every valid simple message, concatenating the parsed Pattern's
text runs with escape sequences resolved reproduces the original input
with the placeholder segments removed (and its own escapes resolved). -/
theorem c4_simple_message_text_roundtrip (i : List Char) (m : List Seg)
    (n : List Char) (h : parseSimpleMessage i = .ok (m, n)) :
    stripPlaceholders i = some (patternText m) := by
  rw [parseSimpleMessage] at h
  rw [stripPlaceholders]
  exact parseSegs_strip (i.length + 1) i m n h

/-- Witness for C4: two valid simple messages exercising the extended
placeholder grammar — markup open and close tags, and a numeric-literal
operand carrying a quoted-literal attribute value that contains a closing
brace — both round-trip to their placeholder-stripped text. -/
theorem c4_witness :
    parseSimpleMessage ['x', '{', '#', 'b', '}', 'y', '{', '/', 'b', '}', 'z'] =
      .ok ([.text 'x', .placeholder (.markup .mopen ['b'] [] []), .text 'y',
            .placeholder (.markup .mclose ['b'] [] []), .text 'z'],
        ['x', '{', '#', 'b', '}', 'y', '{', '/', 'b', '}', 'z']) ∧
    stripPlaceholders ['x', '{', '#', 'b', '}', 'y', '{', '/', 'b', '}', 'z'] =
      some (patternText [.text 'x', .placeholder (.markup .mopen ['b'] [] []),
        .text 'y', .placeholder (.markup .mclose ['b'] [] []), .text 'z']) ∧
    patternText [.text 'x', .placeholder (.markup .mopen ['b'] [] []), .text 'y',
        .placeholder (.markup .mclose ['b'] [] []), .text 'z'] = ['x', 'y', 'z'] ∧
    stripPlaceholders
        ['a', '{', '1', '.', '5', ' ', '@', 'a', '=', '|', '}', '|', '}', 'b'] =
      some (patternText [.text 'a',
        .placeholder (.expression (some (.literal false ['1', '.', '5'])) none
          [(['a'], some (.literal true ['}']))]), .text 'b']) ∧
    patternText [.text 'a',
        .placeholder (.expression (some (.literal false ['1', '.', '5'])) none
          [(['a'], some (.literal true ['}']))]), .text 'b'] = ['a', 'b'] := by
  refine ⟨by decide, ?_, by decide, ?_, by decide⟩
  · exact c4_simple_message_text_roundtrip
      ['x', '{', '#', 'b', '}', 'y', '{', '/', 'b', '}', 'z']
      [.text 'x', .placeholder (.markup .mopen ['b'] [] []), .text 'y',
        .placeholder (.markup .mclose ['b'] [] []), .text 'z']
      ['x', '{', '#', 'b', '}', 'y', '{', '/', 'b', '}', 'z'] (by decide)
  · exact c4_simple_message_text_roundtrip
      ['a', '{', '1', '.', '5', ' ', '@', 'a', '=', '|', '}', '|', '}', 'b']
      [.text 'a',
        .placeholder (.expression (some (.literal false ['1', '.', '5'])) none
          [(['a'], some (.literal true ['}']))]), .text 'b']
      ['a', '{', '1', '.', '5', ' ', '@', 'a', '=', '|', '}', '|', '}', 'b']
      (by decide)

theorem trackGo_contexts (l : List Char) :
    ∀ (pe : MessageParseError) (i : Nat),
      (trackGo pe i l).preContext = pe.preContext ∧
      (trackGo pe i l).postContext = pe.postContext := by
  induction l with
  | nil =>
    intro pe i
    exact ⟨rfl, rfl⟩
  | cons c r ih =>
    intro pe i
    rw [trackGo]
    refine ⟨?_, ?_⟩ <;>
      rw [maybeAdvanceLine] <;>
      by_cases hc : c = LF
    · rw [if_pos hc, (ih _ _).1]
    · rw [if_neg hc, (ih _ _).1]
    · rw [if_pos hc, (ih _ _).2]
    · rw [if_neg hc, (ih _ _).2]

theorem track_lenBeforeSpec (l : List Char) :
    (track l).lengthBeforeCurrentLine = lenBeforeSpec l := by
  have hlen := trackGo_lenBefore l initMessageParseError 0
  rw [track]
  by_cases hm : LF ∈ l
  · rw [hlen, if_pos hm]
    omega
  · rw [hlen, if_neg hm, lenBeforeSpec_of_no_lf l hm]
    rfl

/-- C6 counterexample: the unterminated placeholder consisting of a single
opening brace fails at end of input, yet the end-of-parse diagnostic's
pre-context and post-context are empty rather than non-empty snippets of
the input: the parser never fills the context buffers (a fact the header
documents at line 103), so translateParseError copies empty strings. -/
theorem c6_counterexample :
    parseDiagnostic ['{'] =
      some { line := 0, offset := 1, preContext := [], postContext := [] } := by
  decide

/-- C6 amended: the diagnostic translated once at end of parse carries the
line (the number of newlines consumed before the failure position) and the
intra-line offset (the failure position minus the characters consumed
before the failing line's start), but the pre-context and post-context
buffers, though present, are always empty — the parser does not use
them. -/
theorem c6_amended_diagnostic_fields (i : List Char) (d : UParseErrorM)
    (h : parseDiagnostic i = some d) :
    d.preContext = [] ∧ d.postContext = [] ∧
    ∃ rest, parseSimpleMessage i = .fail rest ∧
      d.line = (i.take (failIndex i rest)).count LF ∧
      d.offset = failIndex i rest -
        lenBeforeSpec (i.take (failIndex i rest)) := by
  simp only [parseDiagnostic] at h
  cases hp : parseSimpleMessage i with
  | ok x =>
    rw [hp] at h
    simp at h
  | fail rest =>
    rw [hp] at h
    simp only [Option.some.injEq] at h
    subst h
    have hpre := (trackGo_contexts (i.take (failIndex i rest))
      initMessageParseError 0).1
    have hpost := (trackGo_contexts (i.take (failIndex i rest))
      initMessageParseError 0).2
    have hline := trackGo_line (i.take (failIndex i rest))
      initMessageParseError 0
    have hlb := track_lenBeforeSpec (i.take (failIndex i rest))
    refine ⟨?_, ?_, rest, rfl, ?_, ?_⟩
    · rw [translateParseError, setParseError]
      exact hpre
    · rw [translateParseError, setParseError]
      exact hpost
    · rw [translateParseError, setParseError]
      show (track (i.take (failIndex i rest))).line = _
      rw [track, hline]
      simp [initMessageParseError]
    · rw [translateParseError, setParseError]
      rw [hlb]

/-- Witness for the amended C6: the single-brace input's diagnostic has
empty contexts, line 0 and offset 1. -/
theorem c6_amended_witness :
    let d : UParseErrorM :=
      { line := 0, offset := 1, preContext := [], postContext := [] }
    d.preContext = [] ∧ d.postContext = [] ∧
    ∃ rest, parseSimpleMessage ['{'] = .fail rest ∧
      d.line = (List.take (failIndex ['{'] rest) ['{']).count LF ∧
      d.offset = failIndex ['{'] rest -
        lenBeforeSpec (List.take (failIndex ['{'] rest) ['{']) :=
  c6_amended_diagnostic_fields ['{']
    { line := 0, offset := 1, preContext := [], postContext := [] } (by decide)

/-- C8: parsing is a pure deterministic function of the immutable input:
any two runs on the same input produce identical outcomes — the same data
model and normalized input on success, and the same diagnostic on
failure. -/
theorem c8_parse_deterministic (i : List Char)
    (r1 r2 : PResult (List Seg × List Char) × Option UParseErrorM)
    (h1 : r1 = parseResult i) (h2 : r2 = parseResult i) :
    r1.1 = r2.1 ∧ r1.2 = r2.2 := by
  subst h1
  subst h2
  exact ⟨rfl, rfl⟩

/-- Witness for C8 at a concrete input. -/
theorem c8_witness :
    (parseResult ['a']).1 = (parseResult ['a']).1 ∧
    (parseResult ['a']).2 = (parseResult ['a']).2 :=
  c8_parse_deterministic ['a'] (parseResult ['a']) (parseResult ['a']) rfl rfl

end MF2

